import Mathlib

/-!
Verification of the `subverses` subtitle translation pipeline.

This file gives a shallow embedding of the core algorithms of the
repository (subtitle parsing, chunking, overlap stitching, the
chunk-by-chunk translation loop with checkpointing, audio segment bin
packing, transcription resume, and the silence-detection error paths)
and proves or refutes the specification claims about them.

Python strings are modelled as `List Char`; Python `dict` records become
structures; functions that can raise exceptions return `Except`/`Option`.
The external translation and transcription services are modelled as
function parameters (`oracle`), which is exactly the determinism
assumption the specification makes about them.
-/

namespace Subverses

/-- Convert a Lean string literal to the `List Char` representation used
throughout this development for Python strings. -/
def s2l (s : String) : List Char := s.data

/-- Decide whether `c` is an ASCII decimal digit (regex `\d` for the
ASCII strings handled here). -/
def isDigitChar (c : Char) : Bool := 48 ≤ c.toNat && c.toNat ≤ 57

/-- Decide whether `c` is a whitespace character (Python regex `\s` on
ASCII input: space, tab, newline, carriage return, vertical tab, form feed). -/
def isSpaceChar (c : Char) : Bool :=
  c = ' ' || c = Char.ofNat 9 || c = Char.ofNat 10 || c = Char.ofNat 13 ||
  c = Char.ofNat 11 || c = Char.ofNat 12

/-- Numeric value of a digit string, as computed by Python `int` on a
string of ASCII digits. -/
def digitsVal (ds : List Char) : Nat := ds.foldl (fun a c => a * 10 + (c.toNat - 48)) 0

/-- Decide whether `pat` is a prefix of `s` (Python `str.startswith`). -/
def startsWith : List Char → List Char → Bool
  | [], _ => true
  | _ :: _, [] => false
  | a :: asx, b :: bs => a = b && startsWith asx bs

/-- Decide whether `pat` occurs as a contiguous substring of `s`
(Python `pat in s`). -/
def containsSub (pat : List Char) : List Char → Bool
  | [] => startsWith pat []
  | c :: rest => startsWith pat (c :: rest) || containsSub pat rest

/-- Worker for `splitSep`: leftmost, non-overlapping split of a string on a
non-empty separator, with `acc` holding the reversed current piece.  The
fuel argument only serves to make the recursion structural; `s.length`
fuel is always sufficient. -/
def splitSepFuel (sep : List Char) : Nat → List Char → List Char → List (List Char)
  | 0, acc, s => [acc.reverse ++ s]
  | fuel + 1, acc, s =>
    match s with
    | [] => [acc.reverse]
    | c :: rest =>
      if startsWith sep s then
        acc.reverse :: splitSepFuel sep fuel [] (s.drop sep.length)
      else
        splitSepFuel sep fuel (c :: acc) rest

/-- Python `s.split(sep)` for a non-empty separator; also the behaviour of
`re.split` on a pattern with no metacharacters, as used by the source. -/
def splitSep (sep s : List Char) : List (List Char) :=
  splitSepFuel sep (s.length + 1) [] s

/-- Python `sep.join(parts)`. -/
def joinSep (sep : List Char) : List (List Char) → List Char
  | [] => []
  | [p] => p
  | p :: ps => p ++ sep ++ joinSep sep ps

/-- Decimal digit character for `d < 10`. -/
def digitChar (d : Nat) : Char := Char.ofNat (48 + d)

/-- Worker for `natToChars`; fuel-based so that it is structural.  `n + 1`
fuel is always sufficient. -/
def natToCharsGo : Nat → Nat → List Char → List Char
  | 0, _, acc => acc
  | fuel + 1, n, acc =>
    if n < 10 then digitChar n :: acc
    else natToCharsGo fuel (n / 10) (digitChar (n % 10) :: acc)

/-- Decimal rendering of a natural number, as produced by Python string
interpolation of a non-negative `int`. -/
def natToChars (n : Nat) : List Char := natToCharsGo (n + 1) n []

/-- Python exceptions that the modelled code can raise. -/
inductive PyError
  | valueError (msg : List Char)
  | indexError
  | fileNotFoundError
  | audioParseError (msg : List Char)
  | silenceDetectionError (msg : List Char)
  | audioSplitError (msg : List Char)
  | segmentTooLongError (msg : List Char)
deriving DecidableEq, Repr

/-- A subtitle entry, the dict `{"text": ..., "start_time": ..., "end_time": ...}`
built by `parse_block` in `translate.py`. -/
structure Entry where
  text : List Char
  start_time : List Char
  end_time : List Char
deriving DecidableEq, Repr, Inhabited

/-! ### `translate.py`: SRT parsing -/

/-- Model of `parse_block` (`translate.py`).  A block equal to `"\n"` or `""`
marks the end of the file and yields no entry.  The `ValueError` raised by
tuple unpacking on a malformed block is caught by the source (which logs and
returns `None`), so both malformed shapes map to `none` here. -/
def parse_block (block : List Char) : Option Entry :=
  if block = s2l "\n" ∨ block = [] then none
  else
    match splitSep (s2l "\n") block with
    | _index :: timecodes :: text =>
      match splitSep (s2l " --> ") timecodes with
      | [start_time, end_time] =>
        some { text := joinSep (s2l " ") text, start_time := start_time, end_time := end_time }
      | _ => none
    | _ => none

/-- Model of `srt_parse` (`translate.py`): split on blank lines and keep the
blocks that parse. -/
def srt_parse (srt_text : List Char) : List Entry :=
  (splitSep (s2l "\n\n") srt_text).filterMap parse_block

/-! ### `translate.py`: chunk serialization and the numbered-line protocol -/

/-- Model of `concatenate_srt_list` (`translate.py`): serialize a list of
entries as blank-line separated `"<i>: <text>"` lines, where `i` comes from
`enumerate(srt_list)`. -/
def concatenate_srt_list (srt_list : List Entry) : List Char :=
  joinSep (s2l "\n\n") (srt_list.enum.map (fun p => natToChars p.1 ++ s2l ": " ++ p.2.text))

/-- Attempt to match the regex `(\d+):\s*(.*)` at the start of `cs`:
a maximal non-empty digit run, a colon, greedy whitespace, then the rest of
the line. -/
def matchNumAt (cs : List Char) : Option (Nat × List Char) :=
  let ds := cs.takeWhile isDigitChar
  if ds.isEmpty then none
  else
    match cs.drop ds.length with
    | c :: rest =>
      if c = ':' then
        some (digitsVal ds, (rest.dropWhile isSpaceChar).takeWhile (fun ch => ch ≠ Char.ofNat 10))
      else none
    | [] => none

/-- Leftmost match of the regex `(\d+):\s*(.*)` in a string:
`re.findall(r"(\d+):\s*(.*)", text)[0]` from `replace_translation`, with
`none` for the `IndexError` case of an empty match list. -/
def findFirstNumMatch : List Char → Option (Nat × List Char)
  | [] => none
  | c :: rest =>
    match matchNumAt (c :: rest) with
    | some r => some r
    | none => findFirstNumMatch rest

/-- Model of `replace_translation` (`translate.py`).  The source first takes a
`deepcopy` of `srt_list` and then assigns into it; with Lean's value semantics
the copy is implicit.  `word_wrap` abstracts the `textwrap`-based helper of the
same name, whose internals none of the verified claims constrain.
`IndexError` arises when a reply line has no `<digits>:` match or when the
matched number is out of range. -/
def replace_translation (word_wrap : List Char → List Char) (srt_list : List Entry)
    (new_texts : List (List Char)) : Except PyError (List Entry) :=
  new_texts.foldl
    (fun acc text =>
      match acc with
      | .error e => .error e
      | .ok lst =>
        match findFirstNumMatch text with
        | none => .error .indexError
        | some (number, t) =>
          if number < lst.length then
            .ok (lst.set number { lst.getD number default with text := word_wrap t })
          else .error .indexError)
    (.ok srt_list)

/-- The translation text that the fold inside `replace_translation` leaves in
entry `j` after processing all reply lines: the payload of the last parsed
reply line whose number is `j`, if any. -/
def lastMatchFor (j : Nat) : List (Nat × List Char) → Option (List Char)
  | [] => none
  | p :: rest =>
    match lastMatchFor j rest with
    | some t => some t
    | none => if p.1 = j then some p.2 else none

/-! ### `translate.py`: chunking and stitching -/

/-- Worker for `split_into_chunks`: the `while i < len(lst)` loop, expressed
on the suffix of the list starting at `i`.  Fuel only makes the recursion
structural; `lst.length` fuel is sufficient whenever `overlap < chunk_size`. -/
def split_into_chunks_go (chunk_size overlap : Nat) : Nat → List Entry → List (List Entry)
  | 0, _ => []
  | fuel + 1, lst =>
    if lst.isEmpty then []
    else if lst.length ≤ chunk_size then [lst]
    else lst.take chunk_size :: split_into_chunks_go chunk_size overlap fuel (lst.drop (chunk_size - overlap))

/-- Model of `split_into_chunks` (`translate.py`): raises `ValueError` when
`chunk_size <= overlap`, otherwise slides a window of `chunk_size` entries
forward by `chunk_size - overlap` per step, stopping after the window that
reaches the end. -/
def split_into_chunks (lst : List Entry) (chunk_size overlap : Nat) :
    Except PyError (List (List Entry)) :=
  if chunk_size ≤ overlap then
    .error (.valueError (s2l "chunk_size must be greater than overlap"))
  else .ok (split_into_chunks_go chunk_size overlap lst.length lst)

/-- Worker for `_find_overlap`: the `for i in range(overlap)` loop, counting
down; the argument `k` stands for the remaining iterations, so the current
Python index is `overlap - k`.  Python indexes `chunk1[-overlap + i]`, which
raises `IndexError` when `overlap - i` exceeds `len(chunk1)`; every call site
in this development maintains `overlap ≤ chunk1.length`, where `getD` agrees
with the Python indexing. -/
def find_overlap_go (chunk1 chunk2 : List Entry) (overlap : Nat) : Nat → List Entry
  | 0 => chunk1 ++ chunk2.drop overlap
  | k + 1 =>
    if (chunk1.getD (chunk1.length - overlap + (overlap - (k + 1))) default).text
        = (chunk2.getD (overlap - (k + 1)) default).text then
      chunk1.take (chunk1.length - overlap + (overlap - (k + 1))) ++ chunk2.drop (overlap - (k + 1))
    else find_overlap_go chunk1 chunk2 overlap k

/-- Model of `_find_overlap` (`translate.py`). -/
def find_overlap (chunk1 chunk2 : List Entry) (overlap : Nat) : List Entry :=
  if chunk1.isEmpty then chunk2
  else find_overlap_go chunk1 chunk2 overlap overlap

/-- Model of `join_overlapping_chunks` (`translate.py`). -/
def join_overlapping_chunks (chunks : List (List Entry)) (overlap : Nat) : List Entry :=
  if overlap ≤ 1 then
    (chunks.take 1 ++ (chunks.drop 1).map (fun chunk => chunk.drop overlap)).flatten
  else
    chunks.foldl (fun joined_chunks chunk => find_overlap joined_chunks chunk overlap) []

/-! ### `translate.py`: the translation session -/

/-- The apostrophe character, built by code point to keep string literals
free of quote characters. -/
def sq : Char := Char.ofNat 39

/-- The `'''` delimiter of the translation protocol. -/
def tq : List Char := [sq, sq, sq]

/-- A chat message dict `{"role": ..., "content": ...}`. -/
structure Msg where
  role : List Char
  content : List Char
deriving DecidableEq, Repr, Inhabited

/-- The checkpoint dict `{"i": ..., "translated_chunks": ..., "messages": ...}`
persisted by `joblib.dump` into the `.wip.joblib` file after every chunk. -/
structure Wip where
  i : Nat
  translated_chunks : List (List Entry)
  messages : List Msg
deriving DecidableEq, Repr, Inhabited

/-- Python `messages[-3:]`: the last `n` elements of a list. -/
def lastN (n : Nat) (l : List α) : List α := l.drop (l.length - n)

/-- Split `s` at the first occurrence of `pat`, returning the part before the
occurrence and the part after it. -/
def splitAtFirstSub (pat : List Char) : List Char → Option (List Char × List Char)
  | [] => if pat = [] then some ([], []) else none
  | c :: rest =>
    if startsWith pat (c :: rest) then some ([], (c :: rest).drop pat.length)
    else (splitAtFirstSub pat rest).map (fun p => (c :: p.1, p.2))

/-- Model of `find_translated_text` (`translate.py`):
`re.search(r"'''\n?(.*?)'''", s, re.DOTALL)`, i.e. the shortest body between
the first `'''` delimiter (skipping one optional newline) and the next one;
if there is no such match the whole reply is returned. -/
def find_translated_text (translated_text : List Char) : List Char :=
  match splitAtFirstSub tq translated_text with
  | none => translated_text
  | some (_, afterOpen) =>
    match afterOpen with
    | c :: tail =>
      if c = Char.ofNat 10 then
        match splitAtFirstSub tq tail with
        | some (body, _) => body
        | none =>
          -- backtrack: `\n?` matches the empty string instead
          match splitAtFirstSub tq afterOpen with
          | some (body, _) => body
          | none => translated_text
      else
        match splitAtFirstSub tq afterOpen with
        | some (body, _) => body
        | none => translated_text
    | [] => translated_text

/-- Model of `translation_message` (`translate.py`): the single user message
wrapping a serialized chunk in `'''` delimiters. -/
def translation_message (text_chunk target_language extra_prompt_instruction : List Char) :
    List Msg :=
  [{ role := s2l "user",
     content := s2l "\n" ++ tq ++ s2l "\n" ++ text_chunk ++ s2l "\n" ++ tq ++
       s2l "\nPlease translate above text to " ++ target_language ++
       s2l ". \nOutput ONLY translated text!\n" ++ extra_prompt_instruction ++ s2l "\n" }]

/-- Model of `translation_messages` (`translate.py`): prepend the fixed system
instruction to the rolling conversation. -/
def translation_messages (messages : List Msg) (target_language : List Char) : List Msg :=
  [{ role := s2l "system",
     content := s2l "You are a world class professional translator specialized in translating to " ++
       target_language ++
       s2l ".\nPlease maintain the exact text structure (lines of text, empty lines, line breaks, etc.) and do not add or remove any text!\nMake sure the line numbers are unchanged!\nDo not skip any line, even if you would have to output empty line, although try to translate in a way that does not result in empty lines.\nStick to " ++
       target_language ++ s2l " grammar and punctuation rules." }] ++ messages

/-- Model of `translate_chunk` (`translate.py`): the chat completion API call
is the oracle, applied to the messages actually sent (system instruction plus
the rolling window passed in).  `model` and `temperature` are fixed
parameters of a run and are absorbed into the oracle. -/
def translate_chunk (oracle : List Msg → List Char) (messages : List Msg)
    (target_language : List Char) : List Char :=
  oracle (translation_messages messages target_language)

/-- One iteration of the `for i, chunk in enumerate(srt_chunks)` loop of
`translate_srt`, for a chunk that is actually translated (not restored from a
checkpoint): serialize the chunk, extend the conversation, call the service on
the last 3 messages, parse the reply back into the chunk, append the
assistant reply, and persist a checkpoint.  Returns the new `messages`,
`translated_chunks`, and dump trace. -/
def translate_step (oracle : List Msg → List Char) (word_wrap : List Char → List Char)
    (target_language extra_prompt_instruction : List Char) (i : Nat) (chunk : List Entry)
    (messages : List Msg) (translated_chunks : List (List Entry)) (dumps : List Wip) :
    Except PyError (List Msg × List (List Entry) × List Wip) :=
  let chunk_str := concatenate_srt_list chunk
  let messages1 := messages ++ translation_message chunk_str target_language extra_prompt_instruction
  let response := translate_chunk oracle (lastN 3 messages1) target_language
  let translated_chunk_str := find_translated_text response
  let translated_list := splitSep (s2l "\n\n") translated_chunk_str
  match replace_translation word_wrap chunk translated_list with
  | .error e => .error e
  | .ok new_chunk =>
    let translated_chunks1 := translated_chunks ++ [new_chunk]
    let messages2 := messages1 ++ [{ role := s2l "assistant", content := response }]
    .ok (messages2, translated_chunks1,
      dumps ++ [{ i := i, translated_chunks := translated_chunks1, messages := messages2 }])

/-- The chunk loop of `translate_srt`, including the checkpoint rewind:
while a checkpoint `wip` exists and `i ≤ wip.i`, the stored
`translated_chunks` and `messages` are restored verbatim and the chunk is
skipped; afterwards each chunk goes through `translate_step`. -/
def translate_srt_go (oracle : List Msg → List Char) (word_wrap : List Char → List Char)
    (target_language extra_prompt_instruction : List Char) (wip : Option Wip) :
    Nat → List (List Entry) → List Msg → List (List Entry) → List Wip →
    Except PyError (List Msg × List (List Entry) × List Wip)
  | _, [], messages, translated_chunks, dumps => .ok (messages, translated_chunks, dumps)
  | i, chunk :: rest, messages, translated_chunks, dumps =>
    match wip with
    | some w =>
      if i ≤ w.i then
        translate_srt_go oracle word_wrap target_language extra_prompt_instruction (some w)
          (i + 1) rest w.messages w.translated_chunks dumps
      else
        match translate_step oracle word_wrap target_language extra_prompt_instruction
            i chunk messages translated_chunks dumps with
        | .error e => .error e
        | .ok (ms, tc, ds) =>
          translate_srt_go oracle word_wrap target_language extra_prompt_instruction (some w)
            (i + 1) rest ms tc ds
    | none =>
      match translate_step oracle word_wrap target_language extra_prompt_instruction
          i chunk messages translated_chunks dumps with
      | .error e => .error e
      | .ok (ms, tc, ds) =>
        translate_srt_go oracle word_wrap target_language extra_prompt_instruction none
          (i + 1) rest ms tc ds

/-- Model of `translate_srt` (`translate.py`).  `wip` is the content of the
`.wip.joblib` checkpoint file if it exists, `srt_text` the content of the SRT
file.  The result is the stitched translated document together with the trace
of checkpoints persisted during the run. -/
def translate_srt (oracle : List Msg → List Char) (word_wrap : List Char → List Char)
    (wip : Option Wip) (srt_text : List Char)
    (target_language extra_prompt_instruction : List Char) (chunk_size overlap : Nat) :
    Except PyError (List Entry × List Wip) :=
  if chunk_size < overlap then
    .error (.valueError (s2l "Overlap size cannot be larger than chunk size"))
  else if overlap < 0 then
    .error (.valueError (s2l "Overlap size cannot be negative"))
  else
    match split_into_chunks (srt_parse srt_text) chunk_size overlap with
    | .error e => .error e
    | .ok srt_chunks =>
      match translate_srt_go oracle word_wrap target_language extra_prompt_instruction wip
          0 srt_chunks [] [] [] with
      | .error e => .error e
      | .ok (_, translated_chunks, dumps) =>
        .ok (join_overlapping_chunks translated_chunks overlap, dumps)

/-! ### `audio_parse.py` -/

/-- The upstream size cap, `24.5 * 1024**2` bytes (exact in binary floating
point, hence exactly representable here as a rational). -/
def max_clip_size : ℚ := (24.5 : ℚ) * 1024 ^ 2

/-- Worker for `get_sub_max_segments`: the `for i, size in enumerate(segment_sizes)`
loop with its running state.  Sizes are byte counts (`st_size`, a Python
`int`); the comparisons against the floating-point cap are exact for the
integer values involved, so they are modelled over `ℚ`. -/
def get_sub_max_segments_go (cap : ℚ) :
    List Nat → Nat → Nat → List Nat → List (List Nat) → Except PyError (List (List Nat))
  | [], _, _, current_group, segment_groups =>
    .ok (if current_group.isEmpty then segment_groups else segment_groups ++ [current_group])
  | size :: rest, i, current_sum, current_group, segment_groups =>
    if cap < (size : ℚ) then
      .error (.segmentTooLongError (s2l "Segment " ++ natToChars i ++ s2l " is too large."))
    else if cap < ((current_sum + size : Nat) : ℚ) then
      get_sub_max_segments_go cap rest (i + 1) size [i] (segment_groups ++ [current_group])
    else
      get_sub_max_segments_go cap rest (i + 1) (current_sum + size) (current_group ++ [i])
        segment_groups

/-- `get_sub_max_segments` (`audio_parse.py`) with the module-level cap made
explicit; `segment_sizes` models the result of `get_segment_sizes` (the byte
sizes of the split files). -/
def get_sub_max_segments_with_cap (cap : ℚ) (segment_sizes : List Nat) :
    Except PyError (List (List Nat)) :=
  get_sub_max_segments_go cap segment_sizes 0 0 [] []

/-- Model of `get_sub_max_segments` (`audio_parse.py`), using the module
constant `max_clip_size` as the cap, as the source does. -/
def get_sub_max_segments (segment_sizes : List Nat) : Except PyError (List (List Nat)) :=
  get_sub_max_segments_with_cap max_clip_size segment_sizes

/-- The byte sizes of a cluster of segments, indexed into the original size
list. -/
def clusterSum (segment_sizes : List Nat) (group : List Nat) : Nat :=
  (group.map (fun j => segment_sizes.getD j 0)).sum

/-- Observable result of the `ffmpeg` subprocess in
`detect_silence_splits_with_ffmpeg`: because the process is started with
`stderr=subprocess.STDOUT`, diagnostics are merged into the captured stdout
stream, and the stderr slot of `communicate()` is always `None`. -/
structure FfmpegProc where
  merged_stdout : List Char
  returncode : Int
deriving DecidableEq, Repr

/-- Model of Python `float()` on the plain decimal literals printed by the
`silencedetect` filter (optional sign, digits, optional fractional part). -/
def parseFloatUnsigned (s : List Char) : Option ℚ :=
  let intPart := s.takeWhile isDigitChar
  match s.drop intPart.length with
  | [] => if intPart.isEmpty then none else some (digitsVal intPart : ℚ)
  | c :: frac =>
    if c = '.' then
      let fracPart := frac.takeWhile isDigitChar
      if (frac.drop fracPart.length).isEmpty && !(intPart.isEmpty && fracPart.isEmpty) then
        some ((digitsVal intPart : ℚ) + (digitsVal fracPart : ℚ) / (10 : ℚ) ^ fracPart.length)
      else none
    else none

/-- Python `float()` with an optional leading minus sign. -/
def parseFloat (s : List Char) : Option ℚ :=
  match s with
  | c :: rest => if c = '-' then (parseFloatUnsigned rest).map Neg.neg else parseFloatUnsigned s
  | [] => none

/-- The list comprehension at the end of `detect_silence_splits_with_ffmpeg`:
for every captured line containing `silence_start`, parse the float after the
first `"silence_start: "` marker and add half the minimum silence length.
`line.split(...)[1]` raises `IndexError` when the full marker is absent, and
`float(...)` raises `ValueError` on garbage. -/
def parse_silence_lines (min_silence_len_sec : ℚ) : List (List Char) → Except PyError (List ℚ)
  | [] => .ok []
  | line :: rest =>
    if containsSub (s2l "silence_start") line then
      match (splitSep (s2l "silence_start: ") line).get? 1 with
      | none => .error .indexError
      | some part =>
        match parseFloat part with
        | none => .error (.valueError (s2l "could not convert string to float"))
        | some x =>
          match parse_silence_lines min_silence_len_sec rest with
          | .error e => .error e
          | .ok l => .ok ((x + min_silence_len_sec / 2) :: l)
    else parse_silence_lines min_silence_len_sec rest

/-- Model of `detect_silence_splits_with_ffmpeg` (`audio_parse.py`).  The
subprocess result is an input; `stderr_output` is the stderr slot of
`communicate()`, which is `None` because stderr was redirected to stdout
rather than piped. -/
def detect_silence_splits_with_ffmpeg (min_silence_len_sec : ℚ) (process : FfmpegProc) :
    Except PyError (List ℚ) :=
  let stdout_output := process.merged_stdout
  let stderr_output : Option (List Char) := none
  match stderr_output with
  | some err => .error (.silenceDetectionError err)
  | none =>
    if process.returncode ≠ 0 then .error (.audioParseError stdout_output)
    else parse_silence_lines min_silence_len_sec (splitSep (s2l "\n") stdout_output)

/-! ### `transcribe.py` -/

/-- A parsed subtitle as handled by `pysrt`: start and end time in seconds,
plus its text.  `shift` acts additively on the times. -/
structure Sub where
  start : ℚ
  stop : ℚ
  text : List Char
deriving DecidableEq, Repr

/-- Model of `shift_subtitles` (`transcribe.py`): shift all subtitles by a
given amount of seconds. -/
def shift_subtitles (subs : List Sub) (shift : ℚ) : List Sub :=
  subs.map (fun s => { s with start := s.start + shift, stop := s.stop + shift })

/-- The fields of the context consulted by `transcribe_file`. -/
structure TranscribeContext where
  start_transcription_segment : Nat
  force_transcription_from_audio : Bool
deriving DecidableEq, Repr

/-- Model of `_transcribed_file` (`transcribe.py`): read the previously
written transcription file and shift it by the segment offset. -/
def transcribed_file_read (file_content : List Sub) (segment_offset : ℚ) : List Sub :=
  shift_subtitles file_content segment_offset

/-- Model of `transcribe_file` (`transcribe.py`).  `service` is the
transcript the transcription service returns for this audio segment;
`disk` the current content of the transcription file for this segment, if it
exists.  The result is the returned transcript, whether the service was
called, and the resulting file content.  String rendering through `pysrt` is
modelled at the subtitle-list level. -/
def transcribe_file (context : TranscribeContext) (service : List Sub)
    (disk : Option (List Sub)) (segment_no : Option Nat) (segment_offset : ℚ) :
    Except PyError (List Sub × Bool × Option (List Sub)) :=
  match segment_no with
  | some n =>
    if n < context.start_transcription_segment then
      match disk with
      | none => .error .fileNotFoundError
      | some content => .ok (transcribed_file_read content segment_offset, false, disk)
    else if disk.isSome && !context.force_transcription_from_audio then
      match disk with
      | none => .error .fileNotFoundError
      | some content => .ok (transcribed_file_read content segment_offset, false, disk)
    else
      let subs := if 0 < n then shift_subtitles service segment_offset else service
      .ok (subs, true, some subs)
  | none =>
    if disk.isSome && !context.force_transcription_from_audio then
      match disk with
      | none => .error .fileNotFoundError
      | some content => .ok (transcribed_file_read content segment_offset, false, disk)
    else
      .ok (service, true, some service)

/-- Decidable equality for `Except`, used to evaluate concrete runs. -/
instance {ε α : Type} [DecidableEq ε] [DecidableEq α] : DecidableEq (Except ε α) := fun a b =>
  match a, b with
  | .ok x, .ok y =>
    if h : x = y then .isTrue (by rw [h]) else .isFalse (by intro hc; cases hc; exact h rfl)
  | .error x, .error y =>
    if h : x = y then .isTrue (by rw [h]) else .isFalse (by intro hc; cases hc; exact h rfl)
  | .ok _, .error _ => .isFalse (by intro hc; cases hc)
  | .error _, .ok _ => .isFalse (by intro hc; cases hc)

/-! ### Example data used by concrete instantiations -/

/-- A 20-entry document with pairwise distinct texts. -/
def exDoc20 : List Entry :=
  (List.range 20).map (fun k => { text := s2l "t" ++ natToChars k,
                                  start_time := natToChars k,
                                  end_time := natToChars (k + 1) })

/-- A 3-entry document with texts `t0`, `t1`, `t2`. -/
def exDoc3 : List Entry :=
  (List.range 3).map (fun k => { text := s2l "t" ++ natToChars k,
                                 start_time := natToChars k,
                                 end_time := natToChars (k + 1) })

/-- The second chunk produced by `split_into_chunks exDoc3 2 1`: it covers
document positions 1 and 2. -/
def c4_chunk1 : List Entry :=
  match split_into_chunks exDoc3 2 1 with
  | .ok chunks => chunks.getD 1 []
  | .error _ => []

/-- A translation service model for concrete runs: echo the body of the last
user message back unchanged (a deterministic function of the messages it
receives). -/
def exOracle : List Msg → List Char := fun msgs =>
  match msgs.getLast? with
  | some m => find_translated_text m.content
  | none => []

/-- A 2-entry SRT file. -/
def exSrt : List Char :=
  s2l "1\n00:00:00,000 --> 00:00:01,000\nAAA\n\n2\n00:00:01,000 --> 00:00:02,000\nBBB"

/-- The uninterrupted run of `translate_srt` on `exSrt` with
`chunk_size = 1`, `overlap = 0`. -/
def exFull : Except PyError (List Entry × List Wip) :=
  translate_srt exOracle (fun t => t) none exSrt (s2l "Polish") [] 1 0

/-- The final document of the uninterrupted example run. -/
def exFullDoc : List Entry :=
  match exFull with
  | .ok (doc, _) => doc
  | .error _ => []

/-- The checkpoint trace of the uninterrupted example run. -/
def exFullDumps : List Wip :=
  match exFull with
  | .ok (_, dumps) => dumps
  | .error _ => []

/-- A one-subtitle transcript returned by the transcription service in the
`transcribe_file` examples. -/
def c6_service : List Sub := [{ start := 0, stop := 1, text := s2l "hello" }]

/-! ## Theorems -/

/-! ### C1: chunk/stitch identity -/

theorem split_go_join_low (cs ov : Nat) (hov : ov < cs) :
    ∀ (fuel : Nat) (suf : List Entry), suf.length ≤ fuel →
      ((split_into_chunks_go cs ov fuel suf).map (fun c => c.drop ov)).flatten = suf.drop ov := by
  intro fuel
  induction fuel with
  | zero =>
    intro suf hlen
    have : suf = [] := List.eq_nil_of_length_eq_zero (Nat.le_zero.mp hlen)
    subst this
    simp [split_into_chunks_go]
  | succ fuel ih =>
    intro suf hlen
    by_cases hemp : suf.isEmpty = true
    · rw [List.isEmpty_iff] at hemp
      subst hemp
      simp [split_into_chunks_go]
    · by_cases hle : suf.length ≤ cs
      · rw [split_into_chunks_go, if_neg hemp, if_pos hle]
        simp
      · push_neg at hle
        have hlen' : (suf.drop (cs - ov)).length ≤ fuel := by
          rw [List.length_drop]; omega
        rw [split_into_chunks_go, if_neg hemp, if_neg (by omega)]
        rw [List.map_cons, List.flatten_cons, ih _ hlen']
        rw [List.drop_drop]
        have hcs : cs - ov + ov = cs := Nat.sub_add_cancel (Nat.le_of_lt hov)
        rw [hcs]
        conv_rhs => rw [← List.take_append_drop cs suf]
        rw [List.drop_append_eq_append_drop]
        have htl : (suf.take cs).length = cs := by
          rw [List.length_take]; omega
        rw [htl, Nat.sub_eq_zero_of_le (Nat.le_of_lt hov), List.drop_zero]

theorem split_go_join_high (cs ov : Nat) (hov2 : 2 ≤ ov) (hov : ov < cs) :
    ∀ (fuel : Nat) (suf pre : List Entry), suf.length ≤ fuel → ov ≤ suf.length →
      List.foldl (fun acc c => find_overlap acc c ov) (pre ++ suf.take ov)
        (split_into_chunks_go cs ov fuel suf) = pre ++ suf := by
  intro fuel
  induction fuel with
  | zero =>
    intro suf pre hlen hov'
    exfalso
    omega
  | succ fuel ih =>
    intro suf pre hlen hovle
    have hemp : ¬ suf.isEmpty = true := by
      cases suf with
      | nil => exfalso; simp at hovle; omega
      | cons a l => simp
    have hacclen : (pre ++ suf.take ov).length = pre.length + ov := by
      simp [List.length_take]
      omega
    have hacc_ne : (pre ++ suf.take ov) ≠ [] := by
      intro h
      rw [h] at hacclen
      simp at hacclen
      omega
    have hget : (pre ++ suf.take ov).getD pre.length default = suf.getD 0 default := by
      rw [List.getD_eq_getD_get?, List.get?_append_right (Nat.le_refl _)]
      rw [Nat.sub_self]
      rw [List.getD_eq_getD_get?]
      cases suf with
      | nil => simp at hovle; omega
      | cons a l =>
        have : ov = Nat.succ (ov - 1) := by omega
        rw [this]
        rfl
    -- the first loop iteration of `_find_overlap` always matches at i = 0
    obtain ⟨m, hm⟩ : ∃ m, ov = m + 1 := ⟨ov - 1, by omega⟩
    have hfo : ∀ c2 : List Entry, c2.getD 0 default = suf.getD 0 default →
        find_overlap (pre ++ suf.take ov) c2 ov = pre ++ c2 := by
      intro c2 hc2
      rw [find_overlap, if_neg (by simp [List.isEmpty_iff, hacc_ne])]
      conv_lhs => rw [hm]
      rw [find_overlap_go]
      rw [if_pos]
      · rw [← hm, Nat.sub_self, Nat.add_zero, List.drop_zero, hacclen]
        have : pre.length + ov - ov = pre.length := by omega
        rw [this, List.take_left]
      · rw [← hm, Nat.sub_self, Nat.add_zero, hacclen]
        have : pre.length + ov - ov = pre.length := by omega
        rw [this, hget, hc2]
    by_cases hle : suf.length ≤ cs
    · rw [split_into_chunks_go]
      rw [if_neg hemp, if_pos hle]
      rw [List.foldl_cons, List.foldl_nil]
      rw [hfo suf rfl]
    · push_neg at hle
      rw [split_into_chunks_go]
      rw [if_neg hemp, if_neg (by omega)]
      rw [List.foldl_cons]
      have hc2head : (suf.take cs).getD 0 default = suf.getD 0 default := by
        rw [List.getD_eq_getD_get?, List.getD_eq_getD_get?, List.get?_take (by omega)]
      rw [hfo _ hc2head]
      have hsplit : suf.take cs = suf.take (cs - ov) ++ (suf.drop (cs - ov)).take ov := by
        have : cs = (cs - ov) + ov := by omega
        conv_lhs => rw [this]
        rw [List.take_add]
      have hlen' : (suf.drop (cs - ov)).length ≤ fuel := by
        rw [List.length_drop]; omega
      have hovle' : ov ≤ (suf.drop (cs - ov)).length := by
        rw [List.length_drop]; omega
      calc List.foldl (fun acc c => find_overlap acc c ov) (pre ++ suf.take cs)
            (split_into_chunks_go cs ov fuel (suf.drop (cs - ov)))
          = List.foldl (fun acc c => find_overlap acc c ov)
              ((pre ++ suf.take (cs - ov)) ++ (suf.drop (cs - ov)).take ov)
              (split_into_chunks_go cs ov fuel (suf.drop (cs - ov))) := by
            rw [hsplit, List.append_assoc]
        _ = (pre ++ suf.take (cs - ov)) ++ suf.drop (cs - ov) := ih _ _ hlen' hovle'
        _ = pre ++ suf := by rw [List.append_assoc, List.take_append_drop]

/-- C1.  For every subtitle document and all chunk parameters with
`overlap < chunk_size` (hence `0 ≤ overlap < chunk_size`), chunking with
`split_into_chunks` and stitching the unmodified chunks back with
`join_overlapping_chunks` reproduces the original document exactly; and on
the concrete 20-entry document with `chunk_size = 8`, `overlap = 3` the
chunks cover entries 0–7, 5–12, 10–17 and 15–19 and stitch back to the
20 original entries. -/
theorem chunk_stitch_identity :
    (∀ (lst : List Entry) (chunk_size overlap : Nat), overlap < chunk_size →
      ∀ chunks, split_into_chunks lst chunk_size overlap = .ok chunks →
        join_overlapping_chunks chunks overlap = lst) ∧
    split_into_chunks exDoc20 8 3 =
      .ok [exDoc20.take 8, (exDoc20.drop 5).take 8, (exDoc20.drop 10).take 8, exDoc20.drop 15] ∧
    join_overlapping_chunks
      [exDoc20.take 8, (exDoc20.drop 5).take 8, (exDoc20.drop 10).take 8, exDoc20.drop 15] 3 =
      exDoc20 := by
  refine ⟨?_, by decide, by decide⟩
  intro lst cs ov hov chunks hchunks
  rw [split_into_chunks, if_neg (by omega)] at hchunks
  injection hchunks with hchunks
  subst hchunks
  by_cases hnil : lst = []
  · subst hnil
    simp [split_into_chunks_go, join_overlapping_chunks]
  · by_cases hle : lst.length ≤ cs
    · have h1 : 1 ≤ lst.length := by
        cases lst with
        | nil => exact absurd rfl hnil
        | cons a l => simp
      obtain ⟨m, hm⟩ : ∃ m, lst.length = m + 1 := ⟨lst.length - 1, by omega⟩
      rw [hm, split_into_chunks_go, if_neg (by simp [hnil]), if_pos hle]
      by_cases hov1 : ov ≤ 1
      · rw [join_overlapping_chunks, if_pos hov1]
        simp
      · rw [join_overlapping_chunks, if_neg hov1]
        rw [List.foldl_cons, List.foldl_nil]
        rw [find_overlap, if_pos (show (([] : List Entry).isEmpty) = true from rfl)]
    · push_neg at hle
      obtain ⟨m, hm⟩ : ∃ m, lst.length = m + 1 := ⟨lst.length - 1, by omega⟩
      have hunfold : split_into_chunks_go cs ov lst.length lst =
          lst.take cs :: split_into_chunks_go cs ov m (lst.drop (cs - ov)) := by
        rw [hm, split_into_chunks_go, if_neg (by simp [hnil]), if_neg (by omega)]
      rw [hunfold]
      have hlenm : (lst.drop (cs - ov)).length ≤ m := by
        rw [List.length_drop]
        omega
      by_cases hov1 : ov ≤ 1
      · rw [join_overlapping_chunks, if_pos hov1]
        rw [show (lst.take cs :: split_into_chunks_go cs ov m (lst.drop (cs - ov))).take 1
              = [lst.take cs] from rfl]
        rw [show (lst.take cs :: split_into_chunks_go cs ov m (lst.drop (cs - ov))).drop 1
              = split_into_chunks_go cs ov m (lst.drop (cs - ov)) from rfl]
        rw [List.singleton_append, List.flatten_cons]
        rw [split_go_join_low cs ov hov m _ hlenm]
        rw [List.drop_drop]
        have hcs : cs - ov + ov = cs := by omega
        rw [hcs]
        exact List.take_append_drop cs lst
      · push_neg at hov1
        rw [join_overlapping_chunks, if_neg (by omega)]
        rw [List.foldl_cons]
        rw [find_overlap, if_pos (show (([] : List Entry).isEmpty) = true from rfl)]
        have hsplit : lst.take cs = lst.take (cs - ov) ++ (lst.drop (cs - ov)).take ov := by
          have : cs = (cs - ov) + ov := by omega
          conv_lhs => rw [this]
          rw [List.take_add]
        rw [hsplit]
        have hovle' : ov ≤ (lst.drop (cs - ov)).length := by
          rw [List.length_drop]; omega
        rw [split_go_join_high cs ov (by omega) hov m _ _ hlenm hovle']
        exact List.take_append_drop (cs - ov) lst

/-- Witness for C1 at the concrete 20-entry document with
`chunk_size = 8`, `overlap = 3`. -/
theorem chunk_stitch_identity_witness :
    join_overlapping_chunks
      [exDoc20.take 8, (exDoc20.drop 5).take 8, (exDoc20.drop 10).take 8, exDoc20.drop 15] 3 =
      exDoc20 :=
  chunk_stitch_identity.1 exDoc20 8 3 (by decide) _ chunk_stitch_identity.2.1

/-! ### C2: greedy bin packing of audio segments -/

theorem getD_append_middle (l1 : List Nat) (a : Nat) (l2 : List Nat) :
    (l1 ++ a :: l2).getD l1.length 0 = a := by
  induction l1 with
  | nil => rfl
  | cons x xs ih => simpa using ih

theorem clusterSum_append (sizes : List Nat) (g : List Nat) (i : Nat) :
    clusterSum sizes (g ++ [i]) = clusterSum sizes g + sizes.getD i 0 := by
  simp [clusterSum]

theorem pack_go_spec (cap : ℚ) :
    ∀ (rest front : List Nat) (current_sum : Nat) (current_group : List Nat)
      (segment_groups : List (List Nat)),
      (∀ s ∈ rest, (s : ℚ) ≤ cap) →
      ((current_sum : ℚ) ≤ cap) →
      clusterSum (front ++ rest) current_group = current_sum →
      (∀ g ∈ segment_groups, ((clusterSum (front ++ rest) g : ℚ)) ≤ cap) →
      segment_groups.flatten ++ current_group = List.range front.length →
      ∃ out, get_sub_max_segments_go cap rest front.length current_sum current_group
          segment_groups = .ok out ∧
        (∀ g ∈ out, ((clusterSum (front ++ rest) g : ℚ)) ≤ cap) ∧
        out.flatten = List.range (front.length + rest.length) := by
  intro rest
  induction rest with
  | nil =>
    intro front current_sum current_group segment_groups _ hsum hcg hgroups hflat
    refine ⟨_, rfl, ?_, ?_⟩
    · intro g hg
      by_cases hemp : current_group.isEmpty = true
      · rw [if_pos hemp] at hg
        exact hgroups g hg
      · rw [if_neg hemp] at hg
        rcases List.mem_append.mp hg with h | h
        · exact hgroups g h
        · rcases List.mem_singleton.mp h with rfl
          rw [hcg]
          exact hsum
    · by_cases hemp : current_group.isEmpty = true
      · rw [if_pos hemp]
        rw [List.isEmpty_iff] at hemp
        rw [hemp, List.append_nil] at hflat
        simpa using hflat
      · rw [if_neg hemp]
        rw [List.flatten_append]
        simpa using hflat
  | cons size rest ih =>
    intro front current_sum current_group segment_groups hrest hsum hcg hgroups hflat
    have hsize : (size : ℚ) ≤ cap := hrest size (List.mem_cons_self size rest)
    have hfr : front ++ size :: rest = (front ++ [size]) ++ rest := by
      rw [List.append_assoc]; rfl
    have hfrlen : (front ++ [size]).length = front.length + 1 := by simp
    rw [get_sub_max_segments_go, if_neg (not_lt.mpr hsize)]
    by_cases hover : cap < ((current_sum + size : Nat) : ℚ)
    · rw [if_pos hover]
      have hrest' : ∀ s ∈ rest, (s : ℚ) ≤ cap := fun s hs => hrest s (List.mem_cons_of_mem _ hs)
      have hcg' : clusterSum ((front ++ [size]) ++ rest) [front.length] = size := by
        rw [← hfr]
        simp only [clusterSum, List.map_cons, List.map_nil, List.sum_cons, List.sum_nil]
        rw [getD_append_middle]
        omega
      have hgroups' : ∀ g ∈ segment_groups ++ [current_group],
          ((clusterSum ((front ++ [size]) ++ rest) g : ℚ)) ≤ cap := by
        intro g hg
        rw [← hfr]
        rcases List.mem_append.mp hg with h | h
        · have := hgroups g h
          rwa [hfr] at this ⊢
        · rcases List.mem_singleton.mp h with rfl
          rw [hcg]
          exact hsum
      have hflat' : (segment_groups ++ [current_group]).flatten ++ [front.length] =
          List.range (front ++ [size]).length := by
        rw [List.flatten_append, hfrlen, List.range_succ, ← hflat]
        simp
      have := ih (front ++ [size]) size [front.length] (segment_groups ++ [current_group])
        hrest' hsize hcg' hgroups' hflat'
      rw [hfrlen] at this
      obtain ⟨out, hout, hsums, hcover⟩ := this
      refine ⟨out, hout, ?_, ?_⟩
      · intro g hg
        have := hsums g hg
        rwa [← hfr] at this
      · rw [hcover]
        congr 1
        simp
        omega
    · rw [if_neg hover]
      have hrest' : ∀ s ∈ rest, (s : ℚ) ≤ cap := fun s hs => hrest s (List.mem_cons_of_mem _ hs)
      have hsum' : ((current_sum + size : Nat) : ℚ) ≤ cap := not_lt.mp hover
      have hcg' : clusterSum ((front ++ [size]) ++ rest) (current_group ++ [front.length]) =
          current_sum + size := by
        rw [← hfr, clusterSum_append, hcg, getD_append_middle]
      have hgroups' : ∀ g ∈ segment_groups,
          ((clusterSum ((front ++ [size]) ++ rest) g : ℚ)) ≤ cap := by
        intro g hg
        rw [← hfr]
        exact hgroups g hg
      have hflat' : segment_groups.flatten ++ (current_group ++ [front.length]) =
          List.range (front ++ [size]).length := by
        rw [hfrlen, List.range_succ, ← hflat]
        simp
      have := ih (front ++ [size]) (current_sum + size) (current_group ++ [front.length])
        segment_groups hrest' hsum' hcg' hgroups' hflat'
      rw [hfrlen] at this
      obtain ⟨out, hout, hsums, hcover⟩ := this
      refine ⟨out, hout, ?_, ?_⟩
      · intro g hg
        have := hsums g hg
        rwa [← hfr] at this
      · rw [hcover]
        congr 1
        simp
        omega

/-- C2.  If no single segment size exceeds the cap, `get_sub_max_segments`
returns clusters whose summed sizes stay within the cap and whose
concatenated index lists are exactly `0..n-1` in order; the greedy
left-to-right packing on sizes `[10 MB, 10 MB, 10 MB, 1 MB]` with cap
`20.5 MB` yields clusters `[[0, 1], [2, 3]]`. -/
theorem get_sub_max_segments_spec :
    (∀ (cap : ℚ) (segment_sizes : List Nat),
      (∀ s ∈ segment_sizes, (s : ℚ) ≤ cap) →
      ∃ groups, get_sub_max_segments_with_cap cap segment_sizes = .ok groups ∧
        (∀ g ∈ groups, ((clusterSum segment_sizes g : ℚ)) ≤ cap) ∧
        groups.flatten = List.range segment_sizes.length) ∧
    get_sub_max_segments_with_cap ((20.5 : ℚ) * 1024 ^ 2)
      [10485760, 10485760, 10485760, 1048576] = .ok [[0, 1], [2, 3]] := by
  constructor
  · intro cap sizes hsizes
    cases sizes with
    | nil => exact ⟨[], rfl, by simp, by simp⟩
    | cons s0 rest =>
      have hcap0 : (0 : ℚ) ≤ cap := by
        have := hsizes s0 (List.mem_cons_self s0 rest)
        have h0 : (0 : ℚ) ≤ (s0 : ℚ) := by positivity
        linarith
      have := pack_go_spec cap (s0 :: rest) [] 0 [] [] hsizes (by simpa using hcap0)
        (by simp [clusterSum]) (by simp) (by simp)
      simpa using this
  · rw [show (20.5 : ℚ) * 1024 ^ 2 = (21495808 : ℚ) from by norm_num]
    decide

/-- Witness for C2 at the concrete sizes `[10, 10, 10, 1]` MB with cap
`21495808` bytes, i.e. `20.5` MB. -/
theorem get_sub_max_segments_spec_witness :
    ∃ groups, get_sub_max_segments_with_cap (21495808 : ℚ)
        [10485760, 10485760, 10485760, 1048576] = .ok groups ∧
      (∀ g ∈ groups, ((clusterSum [10485760, 10485760, 10485760, 1048576] g : ℚ)) ≤
        (21495808 : ℚ)) ∧
      groups.flatten = List.range 4 :=
  get_sub_max_segments_spec.1 (21495808 : ℚ)
    [10485760, 10485760, 10485760, 1048576] (by decide)

/-! ### C10: frame property of `replace_translation` -/

theorem getD_set_self (l : List Entry) (n : Nat) (a : Entry) (h : n < l.length) :
    (l.set n a).getD n default = a := by
  rw [List.getD_eq_getD_get?, List.get?_set_eq_of_lt]
  · rfl
  · exact h

theorem getD_set_other (l : List Entry) (n m : Nat) (a : Entry) (h : n ≠ m) :
    (l.set n a).getD m default = l.getD m default := by
  rw [List.getD_eq_getD_get?, List.getD_eq_getD_get?, List.get?_set_ne _ _ h]

theorem replace_translation_chars (word_wrap : List Char → List Char) :
    ∀ (new_texts : List (List Char)) (srt_list : List Entry),
      (∀ t ∈ new_texts, ∃ p, findFirstNumMatch t = some p ∧ p.1 < srt_list.length) →
      ∃ out, replace_translation word_wrap srt_list new_texts = .ok out ∧
        out.length = srt_list.length ∧
        ∀ j, j < srt_list.length →
          (match lastMatchFor j (new_texts.filterMap findFirstNumMatch) with
           | some txt => out.getD j default =
               { srt_list.getD j default with text := word_wrap txt }
           | none => out.getD j default = srt_list.getD j default) := by
  intro new_texts
  induction new_texts with
  | nil =>
    intro lst _
    exact ⟨lst, rfl, rfl, fun j _ => by simp [lastMatchFor]⟩
  | cons t ts ih =>
    intro lst hmatch
    obtain ⟨⟨n, txt⟩, hfind, hlt⟩ := hmatch t (List.mem_cons_self t ts)
    have hlt : n < lst.length := hlt
    have hstep : replace_translation word_wrap lst (t :: ts) =
        replace_translation word_wrap
          (lst.set n { lst.getD n default with text := word_wrap txt }) ts := by
      unfold replace_translation
      rw [List.foldl_cons]
      congr 1
      simp [hfind, hlt]
    set lst' := lst.set n { lst.getD n default with text := word_wrap txt } with hlst'
    have hlen' : lst'.length = lst.length := List.length_set lst n _
    have hmatch' : ∀ t' ∈ ts, ∃ p, findFirstNumMatch t' = some p ∧ p.1 < lst'.length := by
      intro t' ht'
      obtain ⟨p, hp, hplt⟩ := hmatch t' (List.mem_cons_of_mem t ht')
      exact ⟨p, hp, by rw [hlen']; exact hplt⟩
    obtain ⟨out, hout, houtlen, hchar⟩ := ih lst' hmatch'
    refine ⟨out, by rw [hstep]; exact hout, by rw [houtlen, hlen'], ?_⟩
    intro j hj
    have hchar' := hchar j (by rw [hlen']; exact hj)
    have hfilter : (t :: ts).filterMap findFirstNumMatch =
        (n, txt) :: ts.filterMap findFirstNumMatch := by
      rw [List.filterMap_cons, hfind]
    rw [hfilter, lastMatchFor]
    cases hlast : lastMatchFor j (ts.filterMap findFirstNumMatch) with
    | some u =>
      rw [hlast] at hchar'
      by_cases hnj : n = j
      · subst hnj
        rw [hchar']
        have : lst'.getD n default = { lst.getD n default with text := word_wrap txt } :=
          getD_set_self lst n _ hlt
        rw [this]
      · rw [hchar']
        have : lst'.getD j default = lst.getD j default := getD_set_other lst n j _ hnj
        rw [this]
    | none =>
      rw [hlast] at hchar'
      by_cases hnj : n = j
      · subst hnj
        rw [if_pos rfl, hchar']
        exact getD_set_self lst n _ hlt
      · rw [if_neg hnj, hchar']
        exact getD_set_other lst n j _ hnj

/-- C10.  `replace_translation` is a pure function of its input (the source
assigns only into a `deepcopy`): under the precondition that every element of
`new_texts` contains a `<digits>: <text>` match whose number is below the
chunk length, it succeeds, preserves the length, leaves every start/end
timestamp unchanged, replaces the text of exactly the matched entries with
the word-wrapped matched payload (the last reply line wins for a repeated
number), and returns every unmatched entry unchanged. -/
theorem replace_translation_frame (word_wrap : List Char → List Char)
    (new_texts : List (List Char)) (srt_list : List Entry)
    (hmatch : ∀ t ∈ new_texts, ∃ p, findFirstNumMatch t = some p ∧ p.1 < srt_list.length) :
    ∃ out, replace_translation word_wrap srt_list new_texts = .ok out ∧
      out.length = srt_list.length ∧
      (∀ j, j < srt_list.length →
        (out.getD j default).start_time = (srt_list.getD j default).start_time ∧
        (out.getD j default).end_time = (srt_list.getD j default).end_time) ∧
      (∀ j txt, j < srt_list.length →
        lastMatchFor j (new_texts.filterMap findFirstNumMatch) = some txt →
        (out.getD j default).text = word_wrap txt) ∧
      (∀ j, j < srt_list.length →
        lastMatchFor j (new_texts.filterMap findFirstNumMatch) = none →
        out.getD j default = srt_list.getD j default) := by
  obtain ⟨out, hout, hlen, hchar⟩ := replace_translation_chars word_wrap new_texts srt_list hmatch
  refine ⟨out, hout, hlen, ?_, ?_, ?_⟩
  · intro j hj
    have := hchar j hj
    cases hlast : lastMatchFor j (new_texts.filterMap findFirstNumMatch) with
    | some u => rw [hlast] at this; rw [this]; exact ⟨rfl, rfl⟩
    | none => rw [hlast] at this; rw [this]; exact ⟨rfl, rfl⟩
  · intro j txt hj hlast
    have := hchar j hj
    rw [hlast] at this
    rw [this]
  · intro j hj hlast
    have := hchar j hj
    rwa [hlast] at this

/-- Witness for C10: replies `["1: X"]` on a two-entry chunk rewrite exactly
entry 1. -/
theorem replace_translation_frame_witness :
    ∃ out, replace_translation (fun t => t)
        [{ text := s2l "a", start_time := s2l "0", end_time := s2l "1" },
         { text := s2l "b", start_time := s2l "1", end_time := s2l "2" }]
        [s2l "1: X"] = .ok out ∧
      out.length = 2 ∧
      (∀ j, j < 2 →
        (out.getD j default).start_time =
          (([{ text := s2l "a", start_time := s2l "0", end_time := s2l "1" },
             { text := s2l "b", start_time := s2l "1", end_time := s2l "2" }] :
              List Entry).getD j default).start_time ∧
        (out.getD j default).end_time =
          (([{ text := s2l "a", start_time := s2l "0", end_time := s2l "1" },
             { text := s2l "b", start_time := s2l "1", end_time := s2l "2" }] :
              List Entry).getD j default).end_time) ∧
      (∀ j txt, j < 2 →
        lastMatchFor j ([s2l "1: X"].filterMap findFirstNumMatch) = some txt →
        (out.getD j default).text = txt) ∧
      (∀ j, j < 2 →
        lastMatchFor j ([s2l "1: X"].filterMap findFirstNumMatch) = none →
        out.getD j default =
          ([{ text := s2l "a", start_time := s2l "0", end_time := s2l "1" },
            { text := s2l "b", start_time := s2l "1", end_time := s2l "2" }] :
              List Entry).getD j default) :=
  replace_translation_frame (fun t => t) _ _
    (fun t ht => by
      rw [List.mem_singleton] at ht
      subst ht
      exact ⟨(1, s2l "X"), by decide, by decide⟩)

/-! ### C4: the numbered-line block protocol -/

theorem s2l_nlnl : s2l "\n\n" = [Char.ofNat 10, Char.ofNat 10] := rfl

theorem startsWith_append_self : ∀ (pat t : List Char), startsWith pat (pat ++ t) = true := by
  intro pat
  induction pat with
  | nil => intro t; rfl
  | cons a asx ih => intro t; simp [startsWith, ih]

theorem startsWith_nlnl_cons_false (c : Char) (rest : List Char) (hc : c ≠ Char.ofNat 10) :
    startsWith (s2l "\n\n") (c :: rest) = false := by
  rw [s2l_nlnl]
  simp [startsWith]
  intro h
  exact absurd h.symm hc

theorem splitSepFuel_irrel (sep : List Char) (hsep : sep ≠ []) :
    ∀ (fuel fuel' : Nat) (acc s : List Char), s.length ≤ fuel → s.length ≤ fuel' →
      splitSepFuel sep fuel acc s = splitSepFuel sep fuel' acc s := by
  have hseplen : 1 ≤ sep.length := List.length_pos.mpr hsep
  intro fuel
  induction fuel with
  | zero =>
    intro fuel' acc s hf hf'
    have hs : s = [] := List.eq_nil_of_length_eq_zero (Nat.le_zero.mp hf)
    subst hs
    cases fuel' with
    | zero => rfl
    | succ f' => simp [splitSepFuel]
  | succ fuel ih =>
    intro fuel' acc s hf hf'
    cases s with
    | nil =>
      cases fuel' with
      | zero => simp [splitSepFuel]
      | succ f' => rfl
    | cons c rest =>
      cases fuel' with
      | zero => exfalso; simp at hf'
      | succ f' =>
        rw [splitSepFuel, splitSepFuel]
        by_cases hpre : startsWith sep (c :: rest) = true
        · rw [if_pos hpre, if_pos hpre]
          have hlen : ((c :: rest).drop sep.length).length ≤ fuel := by
            rw [List.length_drop]
            simp at hf ⊢
            omega
          have hlen' : ((c :: rest).drop sep.length).length ≤ f' := by
            rw [List.length_drop]
            simp at hf' ⊢
            omega
          rw [ih f' [] _ hlen hlen']
        · rw [if_neg hpre, if_neg hpre]
          have hlen : rest.length ≤ fuel := by simp at hf; omega
          have hlen' : rest.length ≤ f' := by simp at hf'; omega
          rw [ih f' (c :: acc) rest hlen hlen']

theorem splitSepFuel_no_nl :
    ∀ (fuel : Nat) (p acc : List Char), p.length ≤ fuel → (Char.ofNat 10) ∉ p →
      splitSepFuel (s2l "\n\n") fuel acc p = [acc.reverse ++ p] := by
  intro fuel
  induction fuel with
  | zero =>
    intro p acc hf _
    have hp : p = [] := List.eq_nil_of_length_eq_zero (Nat.le_zero.mp hf)
    subst hp
    rfl
  | succ fuel ih =>
    intro p acc hf hp
    cases p with
    | nil => simp [splitSepFuel]
    | cons c rest =>
      have hc : c ≠ Char.ofNat 10 := fun h => hp (h ▸ List.mem_cons_self c rest)
      rw [splitSepFuel, if_neg (by rw [startsWith_nlnl_cons_false c rest hc]; simp)]
      rw [ih rest (c :: acc) (by simp at hf; omega) (fun h => hp (List.mem_cons_of_mem c h))]
      simp

theorem splitSepFuel_cross :
    ∀ (p acc s : List Char) (fuel : Nat),
      (p ++ s2l "\n\n" ++ s).length ≤ fuel → (Char.ofNat 10) ∉ p →
      splitSepFuel (s2l "\n\n") fuel acc (p ++ s2l "\n\n" ++ s) =
        (acc.reverse ++ p) :: splitSep (s2l "\n\n") s := by
  intro p
  induction p with
  | nil =>
    intro acc s fuel hf _
    simp only [List.nil_append] at hf ⊢
    cases fuel with
    | zero => exfalso; rw [s2l_nlnl] at hf; simp at hf
    | succ f =>
      have hshape : s2l "\n\n" ++ s = Char.ofNat 10 :: (Char.ofNat 10 :: s) := by
        rw [s2l_nlnl]; rfl
      rw [hshape, splitSepFuel]
      rw [if_pos (by rw [← hshape]; exact startsWith_append_self _ s)]
      have hdrop : (Char.ofNat 10 :: Char.ofNat 10 :: s).drop (s2l "\n\n").length = s := by
        rw [s2l_nlnl]; rfl
      rw [hdrop]
      rw [splitSepFuel_irrel (s2l "\n\n") (by rw [s2l_nlnl]; simp) f (s.length + 1) [] s
        (by rw [hshape] at hf; simp at hf; omega) (by omega)]
      rw [splitSep]
      simp
  | cons c p' ih =>
    intro acc s fuel hf hp
    have hc : c ≠ Char.ofNat 10 := fun h => hp (h ▸ List.mem_cons_self c p')
    cases fuel with
    | zero => exfalso; simp at hf
    | succ f =>
      have hshape : (c :: p') ++ s2l "\n\n" ++ s = c :: (p' ++ s2l "\n\n" ++ s) := by simp
      rw [hshape, splitSepFuel]
      rw [if_neg (by rw [startsWith_nlnl_cons_false c _ hc]; simp)]
      rw [ih (c :: acc) s f (by rw [hshape] at hf; simp at hf ⊢; omega)
        (fun h => hp (List.mem_cons_of_mem c h))]
      simp

theorem splitSep_joinSep :
    ∀ (parts : List (List Char)), parts ≠ [] → (∀ p ∈ parts, (Char.ofNat 10) ∉ p) →
      splitSep (s2l "\n\n") (joinSep (s2l "\n\n") parts) = parts := by
  intro parts
  induction parts with
  | nil => intro h _; exact absurd rfl h
  | cons p ps ih =>
    intro _ hnl
    cases ps with
    | nil =>
      rw [joinSep, splitSep]
      rw [splitSepFuel_no_nl (p.length + 1) p [] (by omega) (hnl p (List.mem_singleton.mpr rfl))]
      simp
    | cons q qs =>
      have hjoin : joinSep (s2l "\n\n") (p :: q :: qs) =
          p ++ s2l "\n\n" ++ joinSep (s2l "\n\n") (q :: qs) := rfl
      rw [hjoin, splitSep]
      rw [splitSepFuel_cross p [] _ _ (by omega) (hnl p (List.mem_cons_self p _))]
      rw [ih (by simp) (fun r hr => hnl r (List.mem_cons_of_mem p hr))]
      simp

theorem digitChar_toNat (d : Nat) (h : d < 10) : (digitChar d).toNat = 48 + d := by
  unfold digitChar
  interval_cases d <;> decide

theorem isDigitChar_digitChar (d : Nat) (h : d < 10) : isDigitChar (digitChar d) = true := by
  unfold isDigitChar
  rw [digitChar_toNat d h]
  simp only [Bool.and_eq_true, decide_eq_true_eq]
  omega

theorem digitChar_ne_nl (d : Nat) (h : d < 10) : digitChar d ≠ Char.ofNat 10 := by
  unfold digitChar
  interval_cases d <;> decide

theorem natToCharsGo_spec :
    ∀ (fuel n : Nat) (acc : List Char), n < 10 ^ (fuel + 1) →
      ∃ ds, natToCharsGo (fuel + 1) n acc = ds ++ acc ∧ ds ≠ [] ∧
        (∀ c ∈ ds, isDigitChar c = true) ∧ (∀ c ∈ ds, c ≠ Char.ofNat 10) ∧
        ∀ a : Nat, ds.foldl (fun x c => x * 10 + (c.toNat - 48)) a = a * 10 ^ ds.length + n := by
  intro fuel
  induction fuel with
  | zero =>
    intro n acc hn
    have h10 : n < 10 := by simpa using hn
    refine ⟨[digitChar n], by rw [natToCharsGo, if_pos h10]; rfl, by simp, ?_, ?_, ?_⟩
    · intro c hc
      rw [List.mem_singleton.mp hc]
      exact isDigitChar_digitChar n h10
    · intro c hc
      rw [List.mem_singleton.mp hc]
      exact digitChar_ne_nl n h10
    · intro a
      simp [List.foldl_cons, digitChar_toNat n h10]
  | succ fuel ih =>
    intro n acc hn
    by_cases h10 : n < 10
    · refine ⟨[digitChar n], by rw [natToCharsGo, if_pos h10]; rfl, by simp, ?_, ?_, ?_⟩
      · intro c hc
        rw [List.mem_singleton.mp hc]
        exact isDigitChar_digitChar n h10
      · intro c hc
        rw [List.mem_singleton.mp hc]
        exact digitChar_ne_nl n h10
      · intro a
        simp [List.foldl_cons, digitChar_toNat n h10]
    · push_neg at h10
      have hdiv : n / 10 < 10 ^ (fuel + 1) := by
        have hpow : 10 ^ (fuel + 1 + 1) = 10 ^ (fuel + 1) * 10 := by ring
        rw [hpow] at hn
        omega
      obtain ⟨ds', hds', hne', hdig', hnl', hval'⟩ := ih (n / 10) (digitChar (n % 10) :: acc) hdiv
      have hmod : n % 10 < 10 := Nat.mod_lt n (by omega)
      refine ⟨ds' ++ [digitChar (n % 10)], ?_, by simp, ?_, ?_, ?_⟩
      · rw [natToCharsGo, if_neg (by omega), hds']
        simp
      · intro c hc
        rcases List.mem_append.mp hc with h | h
        · exact hdig' c h
        · rw [List.mem_singleton.mp h]
          exact isDigitChar_digitChar _ hmod
      · intro c hc
        rcases List.mem_append.mp hc with h | h
        · exact hnl' c h
        · rw [List.mem_singleton.mp h]
          exact digitChar_ne_nl _ hmod
      · intro a
        rw [List.foldl_append, hval' a]
        simp [List.foldl_cons, digitChar_toNat _ hmod, List.length_append]
        rw [Nat.pow_succ]
        have := Nat.div_add_mod n 10
        ring_nf
        omega

theorem natToChars_spec (n : Nat) :
    natToChars n ≠ [] ∧ (∀ c ∈ natToChars n, isDigitChar c = true) ∧
      (∀ c ∈ natToChars n, c ≠ Char.ofNat 10) ∧ digitsVal (natToChars n) = n := by
  have hn : n < 10 ^ (n + 1) := by
    calc n < 10 ^ n := Nat.lt_pow_self (by norm_num) n
    _ ≤ 10 ^ (n + 1) := Nat.pow_le_pow_right (by norm_num) (by omega)
  obtain ⟨ds, hds, hne, hdig, hnl, hval⟩ := natToCharsGo_spec n n [] hn
  rw [natToChars, hds, List.append_nil]
  exact ⟨hne, hdig, hnl, by rw [digitsVal, hval 0]; simp⟩

theorem takeWhile_append_all (p : Char → Bool) :
    ∀ (xs l : List Char), (∀ c ∈ xs, p c = true) →
      (xs ++ l).takeWhile p = xs ++ l.takeWhile p := by
  intro xs
  induction xs with
  | nil => intro l _; rfl
  | cons a asx ih =>
    intro l h
    rw [List.cons_append, List.takeWhile_cons, if_pos (h a (List.mem_cons_self a asx))]
    rw [ih l (fun c hc => h c (List.mem_cons_of_mem a hc))]
    rfl

theorem takeWhile_eq_self_of_all (p : Char → Bool) :
    ∀ (l : List Char), (∀ c ∈ l, p c = true) → l.takeWhile p = l := by
  intro l
  induction l with
  | nil => intro _; rfl
  | cons a asx ih =>
    intro h
    rw [List.takeWhile_cons, if_pos (h a (List.mem_cons_self a asx))]
    rw [ih (fun c hc => h c (List.mem_cons_of_mem a hc))]

theorem matchNumAt_block (k : Nat) (text : List Char) (h : (Char.ofNat 10) ∉ text) :
    matchNumAt (natToChars k ++ s2l ": " ++ text) = some (k, text.dropWhile isSpaceChar) := by
  obtain ⟨hne, hdig, _, hval⟩ := natToChars_spec k
  have hshape : natToChars k ++ s2l ": " ++ text = natToChars k ++ (':' :: ' ' :: text) := by
    rw [List.append_assoc]
    rfl
  have htake : (natToChars k ++ (':' :: ' ' :: text)).takeWhile isDigitChar = natToChars k := by
    rw [takeWhile_append_all isDigitChar _ _ hdig, List.takeWhile_cons,
      if_neg (by decide), List.append_nil]
  have hdrop : (natToChars k ++ (':' :: ' ' :: text)).drop (natToChars k).length =
      ':' :: ' ' :: text := List.drop_left _ _
  rw [hshape]
  rw [matchNumAt]
  simp only [htake, hdrop]
  rw [if_neg (by simp [List.isEmpty_iff, hne])]
  rw [if_pos trivial]
  have hdw : (' ' :: text).dropWhile isSpaceChar = text.dropWhile isSpaceChar := by
    rw [List.dropWhile_cons, if_pos (by decide)]
  have htw : (text.dropWhile isSpaceChar).takeWhile (fun ch => ch ≠ Char.ofNat 10) =
      text.dropWhile isSpaceChar := by
    apply takeWhile_eq_self_of_all
    intro c hc
    have hmem : c ∈ text := (List.dropWhile_sublist isSpaceChar).subset hc
    simp only [decide_eq_true_eq]
    intro hcn
    exact h (hcn ▸ hmem)
  rw [hdw, htw, hval]

theorem findFirstNumMatch_block (k : Nat) (text : List Char) (h : (Char.ofNat 10) ∉ text) :
    findFirstNumMatch (natToChars k ++ s2l ": " ++ text) =
      some (k, text.dropWhile isSpaceChar) := by
  have hm := matchNumAt_block k text h
  obtain ⟨hne, _, _, _⟩ := natToChars_spec k
  cases hd : natToChars k with
  | nil => exact absurd hd hne
  | cons d ds =>
    rw [hd] at hm
    rw [List.cons_append, List.cons_append] at hm
    rw [List.cons_append, List.cons_append]
    rw [findFirstNumMatch, hm]

theorem enum_entry_mem : ∀ (l : List Entry) (p : Nat × Entry), p ∈ l.enum → p.2 ∈ l := by
  intro l p hp
  rw [List.mem_iff_get?] at hp
  obtain ⟨n, hn⟩ := hp
  rw [List.enum_get? l n] at hn
  cases hl : l.get? n with
  | none => rw [hl] at hn; exact absurd hn (by simp)
  | some a =>
    rw [hl] at hn
    simp at hn
    subst hn
    exact List.get?_mem hl

/-- C4 counterexample.  The chunk covering document positions 1 and 2 of a
3-entry document is serialized with numbers `0` and `1` — the entry's
position within the chunk — and not with its position within the original
document, contradicting the claim. -/
theorem concatenate_uses_chunk_local_indices :
    c4_chunk1 = [{ text := s2l "t1", start_time := s2l "1", end_time := s2l "2" },
                 { text := s2l "t2", start_time := s2l "2", end_time := s2l "3" }] ∧
    concatenate_srt_list c4_chunk1 = s2l "0: t1\n\n1: t2" ∧
    concatenate_srt_list c4_chunk1 ≠ s2l "1: t1\n\n2: t2" := by
  refine ⟨by decide, by decide, by decide⟩

/-- C4 amended.  Each entry of a chunk is serialized by
`concatenate_srt_list` as `"<chunkLocalIndex>: <text>"` where the index is
the entry's 0-based position within the chunk (for newline-free texts, block
`k` of the serialization is exactly that line), and a reply line carrying
index `k` is matched back to chunk position `k` by `replace_translation`'s
regex parse. -/
theorem numbered_block_protocol (lst : List Entry) (hne : lst ≠ [])
    (hnl : ∀ e ∈ lst, (Char.ofNat 10) ∉ e.text) :
    splitSep (s2l "\n\n") (concatenate_srt_list lst) =
      lst.enum.map (fun p => natToChars p.1 ++ s2l ": " ++ p.2.text) ∧
    ∀ k, k < lst.length →
      (splitSep (s2l "\n\n") (concatenate_srt_list lst)).get? k =
        some (natToChars k ++ s2l ": " ++ (lst.getD k default).text) ∧
      findFirstNumMatch (natToChars k ++ s2l ": " ++ (lst.getD k default).text) =
        some (k, ((lst.getD k default).text).dropWhile isSpaceChar) := by
  have hblocks : splitSep (s2l "\n\n") (concatenate_srt_list lst) =
      lst.enum.map (fun p => natToChars p.1 ++ s2l ": " ++ p.2.text) := by
    rw [concatenate_srt_list]
    apply splitSep_joinSep
    · simp [List.enum_eq_zip_range]
      exact hne
    · intro p hp
      obtain ⟨⟨i, e⟩, hmem, rfl⟩ := List.mem_map.mp hp
      intro hcmem
      rcases List.mem_append.mp hcmem with hc | hc
      · rcases List.mem_append.mp hc with hc' | hc'
        · obtain ⟨_, _, hnl10, _⟩ := natToChars_spec i
          exact hnl10 _ hc' rfl
        · simp [s2l] at hc'
      · exact hnl e (enum_entry_mem lst (i, e) hmem) hc
  refine ⟨hblocks, ?_⟩
  intro k hk
  have hget : lst.get? k = some (lst.getD k default) := by
    cases hl : lst.get? k with
    | none => exact absurd (List.get?_eq_none.mp hl) (by omega)
    | some a => rw [List.getD_eq_getD_get?, hl]; rfl
  constructor
  · rw [hblocks, List.get?_map, List.enum_get? lst k, hget]
    rfl
  · apply findFirstNumMatch_block
    exact hnl _ (List.get?_mem hget)

/-- Witness for C4 amended, at chunk position 1 of the 3-entry document. -/
theorem numbered_block_protocol_witness :
    (splitSep (s2l "\n\n") (concatenate_srt_list exDoc3)).get? 1 =
      some (natToChars 1 ++ s2l ": " ++ (exDoc3.getD 1 default).text) ∧
    findFirstNumMatch (natToChars 1 ++ s2l ": " ++ (exDoc3.getD 1 default).text) =
      some (1, ((exDoc3.getD 1 default).text).dropWhile isSpaceChar) :=
  (numbered_block_protocol exDoc3 (by decide) (by decide)).2 1 (by decide)

/-! ### C3 and C5: the checkpointed translation loop -/

section TranslateLoop

variable (oracle : List Msg → List Char) (word_wrap : List Char → List Char)
variable (target_language extra_prompt_instruction : List Char)

theorem translate_step_shape {i : Nat} {chunk : List Entry} {ms ms2 : List Msg}
    {tc tc2 : List (List Entry)} {ds ds2 : List Wip}
    (h : translate_step oracle word_wrap target_language extra_prompt_instruction
      i chunk ms tc ds = .ok (ms2, tc2, ds2)) :
    ds2 = ds ++ [{ i := i, translated_chunks := tc2, messages := ms2 }] ∧
    (∃ nc, tc2 = tc ++ [nc]) ∧
    (∃ u a, ms2 = ms ++ [u, a]) := by
  rw [translate_step] at h
  cases hrep : replace_translation word_wrap chunk
      (splitSep (s2l "\n\n")
        (find_translated_text
          (translate_chunk oracle
            (lastN 3 (ms ++ translation_message (concatenate_srt_list chunk)
              target_language extra_prompt_instruction)) target_language))) with
  | error e => rw [hrep] at h; cases h
  | ok nc =>
    rw [hrep] at h
    injection h with hpair
    injection hpair with h1 hrest
    injection hrest with h2 h3
    subst h1
    subst h2
    subst h3
    refine ⟨rfl, ⟨nc, rfl⟩, ?_⟩
    rw [translation_message, List.append_assoc]
    exact ⟨_, _, rfl⟩

theorem translate_step_dumps (i : Nat) (chunk : List Entry) (ms : List Msg)
    (tc : List (List Entry)) (ds : List Wip) :
    translate_step oracle word_wrap target_language extra_prompt_instruction
      i chunk ms tc ds =
      match translate_step oracle word_wrap target_language extra_prompt_instruction
          i chunk ms tc [] with
      | .error e => .error e
      | .ok (ms2, tc2, ds2) => .ok (ms2, tc2, ds ++ ds2) := by
  rw [translate_step, translate_step]
  cases hrep : replace_translation word_wrap chunk
      (splitSep (s2l "\n\n")
        (find_translated_text
          (translate_chunk oracle
            (lastN 3 (ms ++ translation_message (concatenate_srt_list chunk)
              target_language extra_prompt_instruction)) target_language))) with
  | error e => rfl
  | ok nc => simp

theorem translate_srt_go_dumps (wip : Option Wip) :
    ∀ (rest : List (List Entry)) (i : Nat) (ms : List Msg) (tc : List (List Entry))
      (ds : List Wip),
      translate_srt_go oracle word_wrap target_language extra_prompt_instruction wip
        i rest ms tc ds =
        match translate_srt_go oracle word_wrap target_language extra_prompt_instruction wip
            i rest ms tc [] with
        | .error e => .error e
        | .ok (ms2, tc2, ds2) => .ok (ms2, tc2, ds ++ ds2) := by
  intro rest
  induction rest with
  | nil =>
    intro i ms tc ds
    simp [translate_srt_go]
  | cons chunk rest ih =>
    intro i ms tc ds
    cases wip with
    | some w =>
      by_cases hskip : i ≤ w.i
      · rw [translate_srt_go, if_pos hskip]
        conv_rhs => rw [translate_srt_go, if_pos hskip]
        exact ih (i + 1) w.messages w.translated_chunks ds
      · rw [translate_srt_go, if_neg hskip]
        conv_rhs => rw [translate_srt_go, if_neg hskip]
        rw [translate_step_dumps oracle word_wrap target_language extra_prompt_instruction
          i chunk ms tc ds]
        cases hstep : translate_step oracle word_wrap target_language
            extra_prompt_instruction i chunk ms tc [] with
        | error e => rfl
        | ok r =>
          obtain ⟨ms2, tc2, ds2⟩ := r
          dsimp only
          rw [ih (i + 1) ms2 tc2 (ds ++ ds2), ih (i + 1) ms2 tc2 ds2]
          cases translate_srt_go oracle word_wrap target_language extra_prompt_instruction
              (some w) (i + 1) rest ms2 tc2 [] with
          | error e => rfl
          | ok r2 =>
            obtain ⟨ms3, tc3, ds3⟩ := r2
            simp
    | none =>
      rw [translate_srt_go]
      conv_rhs => rw [translate_srt_go]
      rw [translate_step_dumps oracle word_wrap target_language extra_prompt_instruction
        i chunk ms tc ds]
      cases hstep : translate_step oracle word_wrap target_language
          extra_prompt_instruction i chunk ms tc [] with
      | error e => rfl
      | ok r =>
        obtain ⟨ms2, tc2, ds2⟩ := r
        dsimp only
        rw [ih (i + 1) ms2 tc2 (ds ++ ds2), ih (i + 1) ms2 tc2 ds2]
        cases translate_srt_go oracle word_wrap target_language extra_prompt_instruction
            none (i + 1) rest ms2 tc2 [] with
        | error e => rfl
        | ok r2 =>
          obtain ⟨ms3, tc3, ds3⟩ := r2
          simp

theorem translate_srt_go_skip (w : Wip) :
    ∀ (rest : List (List Entry)) (i : Nat) (ms : List Msg) (tc : List (List Entry))
      (ds : List Wip), i ≤ w.i → w.i + 1 - i ≤ rest.length →
      translate_srt_go oracle word_wrap target_language extra_prompt_instruction (some w)
        i rest ms tc ds =
      translate_srt_go oracle word_wrap target_language extra_prompt_instruction (some w)
        (w.i + 1) (rest.drop (w.i + 1 - i)) w.messages w.translated_chunks ds := by
  intro rest
  induction rest with
  | nil =>
    intro i ms tc ds hle hcnt
    exfalso
    simp at hcnt
    omega
  | cons chunk rest ih =>
    intro i ms tc ds hle hcnt
    rw [translate_srt_go, if_pos hle]
    by_cases hd : i = w.i
    · subst hd
      have h1 : w.i + 1 - w.i = 1 := by omega
      rw [h1]
      rfl
    · have hlt : i < w.i := by omega
      rw [ih (i + 1) w.messages w.translated_chunks ds (by omega) (by simp at hcnt ⊢; omega)]
      have h2 : (chunk :: rest).drop (w.i + 1 - i) = rest.drop (w.i + 1 - (i + 1)) := by
        have h3 : w.i + 1 - i = (w.i + 1 - (i + 1)) + 1 := by omega
        rw [h3]
        rfl
      rw [h2]

theorem translate_srt_go_past (w : Wip) :
    ∀ (rest : List (List Entry)) (i : Nat) (ms : List Msg) (tc : List (List Entry))
      (ds : List Wip), w.i < i →
      translate_srt_go oracle word_wrap target_language extra_prompt_instruction (some w)
        i rest ms tc ds =
      translate_srt_go oracle word_wrap target_language extra_prompt_instruction none
        i rest ms tc ds := by
  intro rest
  induction rest with
  | nil => intro i ms tc ds _; rfl
  | cons chunk rest ih =>
    intro i ms tc ds hgt
    rw [translate_srt_go, if_neg (by omega)]
    conv_rhs => rw [translate_srt_go]
    cases translate_step oracle word_wrap target_language extra_prompt_instruction
        i chunk ms tc ds with
    | error e => rfl
    | ok r =>
      obtain ⟨ms2, tc2, ds2⟩ := r
      exact ih (i + 1) ms2 tc2 ds2 (by omega)

theorem translate_srt_go_len :
    ∀ (rest : List (List Entry)) (i : Nat) (ms : List Msg) (tc : List (List Entry))
      (msf : List Msg) (tcf : List (List Entry)) (dsf : List Wip),
      translate_srt_go oracle word_wrap target_language extra_prompt_instruction none
        i rest ms tc [] = .ok (msf, tcf, dsf) →
      dsf.length = rest.length := by
  intro rest
  induction rest with
  | nil =>
    intro i ms tc msf tcf dsf h
    rw [translate_srt_go] at h
    injection h with hpair
    injection hpair with h1 hrest
    injection hrest with h2 h3
    rw [← h3]
    rfl
  | cons chunk rest ih =>
    intro i ms tc msf tcf dsf h
    rw [translate_srt_go] at h
    cases hstep : translate_step oracle word_wrap target_language extra_prompt_instruction
        i chunk ms tc [] with
    | error e => rw [hstep] at h; cases h
    | ok r =>
      obtain ⟨ms2, tc2, ds2⟩ := r
      rw [hstep] at h
      dsimp only at h
      obtain ⟨hds2, _, _⟩ := translate_step_shape oracle word_wrap target_language
        extra_prompt_instruction hstep
      rw [List.nil_append] at hds2
      subst hds2
      rw [translate_srt_go_dumps oracle word_wrap target_language extra_prompt_instruction
        none rest (i + 1) ms2 tc2 _] at h
      cases hrec : translate_srt_go oracle word_wrap target_language extra_prompt_instruction
          none (i + 1) rest ms2 tc2 [] with
      | error e => rw [hrec] at h; cases h
      | ok r2 =>
        obtain ⟨ms3, tc3, ds3⟩ := r2
        rw [hrec] at h
        injection h with hpair
        injection hpair with h1 hrest
        injection hrest with h2 h3
        rw [← h3]
        have := ih (i + 1) ms2 tc2 ms3 tc3 ds3 hrec
        simp [this]

theorem translate_srt_go_run :
    ∀ (rest : List (List Entry)) (i : Nat) (ms : List Msg) (tc : List (List Entry))
      (msf : List Msg) (tcf : List (List Entry)) (dsf : List Wip),
      translate_srt_go oracle word_wrap target_language extra_prompt_instruction none
        i rest ms tc [] = .ok (msf, tcf, dsf) →
      ∀ k, k < dsf.length →
        (dsf.getD k default).i = i + k ∧
        translate_srt_go oracle word_wrap target_language extra_prompt_instruction none
          (i + k + 1) (rest.drop (k + 1)) (dsf.getD k default).messages
          (dsf.getD k default).translated_chunks [] = .ok (msf, tcf, dsf.drop (k + 1)) := by
  intro rest
  induction rest with
  | nil =>
    intro i ms tc msf tcf dsf h k hk
    rw [translate_srt_go] at h
    injection h with hpair
    injection hpair with h1 hrest
    injection hrest with h2 h3
    exfalso
    rw [← h3] at hk
    simp at hk
  | cons chunk rest ih =>
    intro i ms tc msf tcf dsf h k hk
    rw [translate_srt_go] at h
    cases hstep : translate_step oracle word_wrap target_language extra_prompt_instruction
        i chunk ms tc [] with
    | error e => rw [hstep] at h; cases h
    | ok r =>
      obtain ⟨ms2, tc2, ds2⟩ := r
      rw [hstep] at h
      dsimp only at h
      obtain ⟨hds2, _, _⟩ := translate_step_shape oracle word_wrap target_language
        extra_prompt_instruction hstep
      rw [List.nil_append] at hds2
      subst hds2
      rw [translate_srt_go_dumps oracle word_wrap target_language extra_prompt_instruction
        none rest (i + 1) ms2 tc2 _] at h
      cases hrec : translate_srt_go oracle word_wrap target_language extra_prompt_instruction
          none (i + 1) rest ms2 tc2 [] with
      | error e => rw [hrec] at h; cases h
      | ok r2 =>
        obtain ⟨ms3, tc3, ds3⟩ := r2
        rw [hrec] at h
        injection h with hpair
        injection hpair with h1 hrest
        injection hrest with h2 h3
        subst h1
        subst h2
        have hdsf : dsf = { i := i, translated_chunks := tc2, messages := ms2 } :: ds3 := by
          rw [← h3]
          rfl
        subst hdsf
        cases k with
        | zero =>
          refine ⟨rfl, ?_⟩
          simpa using hrec
        | succ k =>
          have hk' : k < ds3.length := by simp at hk; omega
          obtain ⟨hidx, hrun⟩ := ih (i + 1) ms2 tc2 ms3 tc3 ds3 hrec k hk'
          have hg : (({ i := i, translated_chunks := tc2, messages := ms2 } : Wip) ::
              ds3).getD (k + 1) default = ds3.getD k default := rfl
          constructor
          · rw [hg, hidx]
            omega
          · have hd1 : (chunk :: rest).drop (k + 1 + 1) = rest.drop (k + 1) := rfl
            have hd2 : ((({ i := i, translated_chunks := tc2, messages := ms2 } : Wip) ::
                ds3)).drop (k + 1 + 1) = ds3.drop (k + 1) := rfl
            rw [hg, hd1, hd2, show i + (k + 1) + 1 = (i + 1) + k + 1 from by omega]
            exact hrun

end TranslateLoop

/-- C3.  With the translation service a deterministic function of the
messages it receives, running `translate_srt` to completion in one pass
yields the same final stitched document as killing the process right after
the checkpoint for chunk `k` was persisted and rerunning to completion with
that checkpoint on disk — for every chunk index `k`; the rerun moreover
persists exactly the remaining checkpoints. -/
theorem translate_srt_resume_equivalent
    (oracle : List Msg → List Char) (word_wrap : List Char → List Char)
    (srt_text target_language extra_prompt_instruction : List Char)
    (chunk_size overlap : Nat) (doc : List Entry) (dumps : List Wip) (k : Nat)
    (hfull : translate_srt oracle word_wrap none srt_text target_language
      extra_prompt_instruction chunk_size overlap = .ok (doc, dumps))
    (hk : k < dumps.length) :
    translate_srt oracle word_wrap (some (dumps.getD k default)) srt_text target_language
      extra_prompt_instruction chunk_size overlap = .ok (doc, dumps.drop (k + 1)) := by
  rw [translate_srt] at hfull ⊢
  by_cases h1 : chunk_size < overlap
  · rw [if_pos h1] at hfull; cases hfull
  rw [if_neg h1] at hfull ⊢
  rw [if_neg (by omega : ¬ overlap < 0)] at hfull ⊢
  cases hsp : split_into_chunks (srt_parse srt_text) chunk_size overlap with
  | error e => rw [hsp] at hfull; simp at hfull
  | ok chunks =>
    rw [hsp] at hfull
    dsimp only at hfull ⊢
    cases hrun : translate_srt_go oracle word_wrap target_language extra_prompt_instruction
        none 0 chunks [] [] [] with
    | error e => rw [hrun] at hfull; simp at hfull
    | ok r =>
      obtain ⟨msf, tcf, dsf⟩ := r
      rw [hrun] at hfull
      dsimp only at hfull
      injection hfull with hpair
      injection hpair with hdoc hdumps
      subst hdoc
      subst hdumps
      have hlen := translate_srt_go_len oracle word_wrap target_language
        extra_prompt_instruction chunks 0 [] [] msf tcf dsf hrun
      obtain ⟨hwi, hrest⟩ := translate_srt_go_run oracle word_wrap target_language
        extra_prompt_instruction chunks 0 [] [] msf tcf dsf hrun k hk
      have hwi' : (dsf.getD k default).i = k := by rw [hwi]; omega
      rw [translate_srt_go_skip oracle word_wrap target_language extra_prompt_instruction
        (dsf.getD k default) chunks 0 [] [] [] (Nat.zero_le _)
        (by rw [hwi']; omega)]
      rw [translate_srt_go_past oracle word_wrap target_language extra_prompt_instruction
        (dsf.getD k default) _ _ _ _ _ (by omega)]
      rw [hwi']
      rw [show k + 1 - 0 = k + 1 from by omega]
      rw [show (0 : Nat) + k + 1 = k + 1 from by omega] at hrest
      rw [hrest]

/-- Witness for C3: resuming the concrete 2-chunk run from its first
checkpoint reproduces the uninterrupted run's final document. -/
theorem translate_srt_resume_equivalent_witness :
    translate_srt exOracle (fun t => t) (some (exFullDumps.getD 0 default)) exSrt
      (s2l "Polish") [] 1 0 = .ok (exFullDoc, exFullDumps.drop 1) :=
  translate_srt_resume_equivalent exOracle (fun t => t) exSrt (s2l "Polish") [] 1 0
    exFullDoc exFullDumps 0 (by decide) (by decide)

section TranslateLoopState

variable (oracle : List Msg → List Char) (word_wrap : List Char → List Char)
variable (target_language extra_prompt_instruction : List Char)

theorem translate_srt_go_dump_state :
    ∀ (rest : List (List Entry)) (i : Nat) (ms : List Msg) (tc : List (List Entry))
      (msf : List Msg) (tcf : List (List Entry)) (dsf : List Wip),
      translate_srt_go oracle word_wrap target_language extra_prompt_instruction none
        i rest ms tc [] = .ok (msf, tcf, dsf) →
      ∀ k, k < dsf.length →
        (dsf.getD k default).translated_chunks.length = tc.length + (k + 1) ∧
        (dsf.getD k default).messages.length = ms.length + 2 * (k + 1) ∧
        (∃ t, tc ++ t = (dsf.getD k default).translated_chunks) ∧
        (∃ t, ms ++ t = (dsf.getD k default).messages) := by
  intro rest
  induction rest with
  | nil =>
    intro i ms tc msf tcf dsf h k hk
    rw [translate_srt_go] at h
    injection h with hpair
    injection hpair with h1 hrest
    injection hrest with h2 h3
    exfalso
    rw [← h3] at hk
    simp at hk
  | cons chunk rest ih =>
    intro i ms tc msf tcf dsf h k hk
    rw [translate_srt_go] at h
    cases hstep : translate_step oracle word_wrap target_language extra_prompt_instruction
        i chunk ms tc [] with
    | error e => rw [hstep] at h; cases h
    | ok r =>
      obtain ⟨ms2, tc2, ds2⟩ := r
      rw [hstep] at h
      dsimp only at h
      obtain ⟨hds2, ⟨nc, htc2⟩, ⟨u, a, hms2⟩⟩ := translate_step_shape oracle word_wrap
        target_language extra_prompt_instruction hstep
      rw [List.nil_append] at hds2
      subst hds2
      rw [translate_srt_go_dumps oracle word_wrap target_language extra_prompt_instruction
        none rest (i + 1) ms2 tc2 _] at h
      cases hrec : translate_srt_go oracle word_wrap target_language extra_prompt_instruction
          none (i + 1) rest ms2 tc2 [] with
      | error e => rw [hrec] at h; cases h
      | ok r2 =>
        obtain ⟨ms3, tc3, ds3⟩ := r2
        rw [hrec] at h
        injection h with hpair
        injection hpair with h1 hrest
        injection hrest with h2 h3
        have hdsf : dsf = { i := i, translated_chunks := tc2, messages := ms2 } :: ds3 := by
          rw [← h3]
          rfl
        subst hdsf
        cases k with
        | zero =>
          refine ⟨?_, ?_, ?_, ?_⟩
          · show tc2.length = tc.length + 1
            rw [htc2]
            simp
          · show ms2.length = ms.length + 2
            rw [hms2]
            simp
          · exact ⟨[nc], htc2.symm⟩
          · exact ⟨[u, a], hms2.symm⟩
        | succ k =>
          have hk' : k < ds3.length := by simp at hk; omega
          obtain ⟨hl1, hl2, ⟨t1, ht1⟩, ⟨t2, ht2⟩⟩ := ih (i + 1) ms2 tc2 ms3 tc3 ds3 hrec k hk'
          have hg : ((({ i := i, translated_chunks := tc2, messages := ms2 } : Wip) ::
              ds3).getD (k + 1) default) = ds3.getD k default := rfl
          rw [hg]
          refine ⟨?_, ?_, ?_, ?_⟩
          · rw [hl1, htc2]
            simp
            omega
          · rw [hl2, hms2]
            simp
            omega
          · refine ⟨[nc] ++ t1, ?_⟩
            rw [← ht1, htc2]
            simp
          · refine ⟨[u, a] ++ t2, ?_⟩
            rw [← ht2, hms2]
            simp

end TranslateLoopState

/-- C5 counterexample.  In the concrete 2-chunk run, the checkpoint persisted
after chunk 1 stores a `messages` field with all 4 conversation messages,
which is not the last 3 messages of the conversation. -/
theorem checkpoint_stores_full_conversation :
    (exFullDumps.getD 1 default).messages.length = 4 ∧
    lastN 3 (exFullDumps.getD 1 default).messages ≠ (exFullDumps.getD 1 default).messages := by
  exact ⟨by decide, by decide⟩

/-- C5 amended.  After every completed chunk `i` (one checkpoint per chunk,
not only at the end), `translate_srt` persists a checkpoint whose `i` field
is the chunk index, whose `translated_chunks` field holds all `i + 1` chunks
completed so far in order (each earlier checkpoint's chunk list is a prefix),
and whose `messages` field is the **entire** conversation so far — two
messages (user prompt and assistant reply) per completed chunk — rather than
only its last 3 messages. -/
theorem checkpoint_after_every_chunk
    (oracle : List Msg → List Char) (word_wrap : List Char → List Char)
    (srt_text target_language extra_prompt_instruction : List Char)
    (chunk_size overlap : Nat) (doc : List Entry) (dumps : List Wip)
    (hfull : translate_srt oracle word_wrap none srt_text target_language
      extra_prompt_instruction chunk_size overlap = .ok (doc, dumps)) :
    (∀ chunks, split_into_chunks (srt_parse srt_text) chunk_size overlap = .ok chunks →
      dumps.length = chunks.length) ∧
    ∀ k, k < dumps.length →
      (dumps.getD k default).i = k ∧
      (dumps.getD k default).translated_chunks.length = k + 1 ∧
      (dumps.getD k default).messages.length = 2 * (k + 1) ∧
      ∀ j, j ≤ k →
        (dumps.getD j default).translated_chunks =
          ((dumps.getD k default).translated_chunks).take (j + 1) ∧
        (dumps.getD j default).messages =
          ((dumps.getD k default).messages).take (2 * (j + 1)) := by
  rw [translate_srt] at hfull
  by_cases h1 : chunk_size < overlap
  · rw [if_pos h1] at hfull; cases hfull
  rw [if_neg h1] at hfull
  rw [if_neg (by omega : ¬ overlap < 0)] at hfull
  cases hsp : split_into_chunks (srt_parse srt_text) chunk_size overlap with
  | error e => rw [hsp] at hfull; simp at hfull
  | ok chunks =>
    rw [hsp] at hfull
    dsimp only at hfull
    cases hrun : translate_srt_go oracle word_wrap target_language extra_prompt_instruction
        none 0 chunks [] [] [] with
    | error e => rw [hrun] at hfull; simp at hfull
    | ok r =>
      obtain ⟨msf, tcf, dsf⟩ := r
      rw [hrun] at hfull
      dsimp only at hfull
      injection hfull with hpair
      injection hpair with hdoc hdumps
      subst hdumps
      have hlen := translate_srt_go_len oracle word_wrap target_language
        extra_prompt_instruction chunks 0 [] [] msf tcf dsf hrun
      constructor
      · intro chunks' hsp'
        injection hsp' with hc
        rw [← hc]
        exact hlen
      · intro k hk
        obtain ⟨hwi, _⟩ := translate_srt_go_run oracle word_wrap target_language
          extra_prompt_instruction chunks 0 [] [] msf tcf dsf hrun k hk
        obtain ⟨hlk1, hlk2, _, _⟩ := translate_srt_go_dump_state oracle word_wrap
          target_language extra_prompt_instruction chunks 0 [] [] msf tcf dsf hrun k hk
        refine ⟨by rw [hwi]; omega, by rw [hlk1]; simp, by rw [hlk2]; simp, ?_⟩
        intro j hj
        by_cases hjk : j = k
        · subst hjk
          constructor
          · rw [List.take_of_length_le (by rw [hlk1]; simp)]
          · rw [List.take_of_length_le (by rw [hlk2]; simp)]
        · have hjlt : j < k := by omega
          obtain ⟨hlj1, hlj2, _, _⟩ := translate_srt_go_dump_state oracle word_wrap
            target_language extra_prompt_instruction chunks 0 [] [] msf tcf dsf hrun j
            (by omega)
          obtain ⟨_, hrestj⟩ := translate_srt_go_run oracle word_wrap target_language
            extra_prompt_instruction chunks 0 [] [] msf tcf dsf hrun j (by omega)
          have hk' : k - (j + 1) < (dsf.drop (j + 1)).length := by
            rw [List.length_drop]
            omega
          obtain ⟨_, _, ⟨t1, ht1⟩, ⟨t2, ht2⟩⟩ := translate_srt_go_dump_state oracle word_wrap
            target_language extra_prompt_instruction (chunks.drop (j + 1)) (0 + j + 1)
            (dsf.getD j default).messages (dsf.getD j default).translated_chunks
            msf tcf (dsf.drop (j + 1)) hrestj (k - (j + 1)) hk'
          have hgd : (dsf.drop (j + 1)).getD (k - (j + 1)) default = dsf.getD k default := by
            have harith : j + 1 + (k - (j + 1)) = k := by omega
            rw [List.getD_eq_getD_get?, List.getD_eq_getD_get?, List.get?_drop, harith]
          rw [hgd] at ht1 ht2
          constructor
          · rw [← ht1]
            rw [show j + 1 = (dsf.getD j default).translated_chunks.length from by
              rw [hlj1]; simp]
            exact (List.take_left _ _).symm
          · rw [← ht2]
            rw [show 2 * (j + 1) = (dsf.getD j default).messages.length from by
              rw [hlj2]; simp]
            exact (List.take_left _ _).symm

/-- Witness for C5 amended, at the concrete 2-chunk run: checkpoint 1 carries
index 1, both completed chunks, and the full 4-message conversation, with
checkpoint 0 a prefix of it. -/
theorem checkpoint_after_every_chunk_witness :
    (exFullDumps.getD 1 default).i = 1 ∧
    (exFullDumps.getD 1 default).translated_chunks.length = 1 + 1 ∧
    (exFullDumps.getD 1 default).messages.length = 2 * (1 + 1) ∧
    (exFullDumps.getD 0 default).translated_chunks =
      ((exFullDumps.getD 1 default).translated_chunks).take (0 + 1) ∧
    (exFullDumps.getD 0 default).messages =
      ((exFullDumps.getD 1 default).messages).take (2 * (0 + 1)) := by
  have h := (checkpoint_after_every_chunk exOracle (fun t => t) exSrt (s2l "Polish") []
    1 0 exFullDoc exFullDumps (by decide)).2 1 (by decide)
  exact ⟨h.1, h.2.1, h.2.2.1, (h.2.2.2 0 (by decide)).1, (h.2.2.2 0 (by decide)).2⟩

/-! ### C6: transcription resume -/

/-- C6.  Evaluation of `transcribe_file` at the failing input: the original
uninterrupted run of segment 1 (offset 5 s) calls the service, returns the
once-shifted transcript, and writes it to disk; the rerun with
`start_transcription_segment = 2` makes no service call, but returns the
stored transcript shifted **again** by the segment offset — a double shift —
instead of the transcript the original run produced. -/
theorem transcribe_resume_double_shift :
    transcribe_file { start_transcription_segment := 0, force_transcription_from_audio := false }
        c6_service none (some 1) 5 =
      .ok (shift_subtitles c6_service 5, true, some (shift_subtitles c6_service 5)) ∧
    transcribe_file { start_transcription_segment := 2, force_transcription_from_audio := false }
        c6_service (some (shift_subtitles c6_service 5)) (some 1) 5 =
      .ok (shift_subtitles (shift_subtitles c6_service 5) 5, false,
        some (shift_subtitles c6_service 5)) ∧
    shift_subtitles (shift_subtitles c6_service 5) 5 ≠ shift_subtitles c6_service 5 := by
  refine ⟨rfl, rfl, ?_⟩
  intro h
  have := congrArg (fun l => (l.headD { start := 0, stop := 0, text := [] }).start) h
  simp [shift_subtitles, c6_service] at this

/-! ### C7: silence detection error behaviour -/

theorem parse_silence_lines_no_silence_error (min_silence_len_sec : ℚ) :
    ∀ (lines : List (List Char)) (m : List Char),
      parse_silence_lines min_silence_len_sec lines ≠ .error (.silenceDetectionError m) := by
  intro lines
  induction lines with
  | nil => intro m h; cases h
  | cons line rest ih =>
    intro m
    rw [parse_silence_lines]
    by_cases hc : containsSub (s2l "silence_start") line = true
    · rw [if_pos hc]
      cases hg : (splitSep (s2l "silence_start: ") line).get? 1 with
      | none => simp
      | some part =>
        dsimp only
        cases hp : parseFloat part with
        | none => simp
        | some x =>
          dsimp only
          cases hrec : parse_silence_lines min_silence_len_sec rest with
          | error e =>
            dsimp only
            intro h
            injection h with he
            exact ih m (hrec.trans (by rw [he]))
          | ok l => simp
    · rw [if_neg hc]
      exact ih m

/-- C7 counterexample.  A process whose captured (merged) output holds
diagnostics but which exits with code 0 yields a normal result, not a
`SilenceDetectionError` — the stderr check is dead because stderr is
redirected into stdout and `communicate()`'s stderr slot is always `None`. -/
theorem detect_silence_diagnostics_no_error :
    (s2l "ffmpeg version 4.4 Copyright (c) the FFmpeg developers" : List Char) ≠ [] ∧
    detect_silence_splits_with_ffmpeg 1
      { merged_stdout := s2l "ffmpeg version 4.4 Copyright (c) the FFmpeg developers",
        returncode := 0 } = .ok [] := by
  exact ⟨by decide, by decide⟩

/-- C7 amended.  `detect_silence_splits_with_ffmpeg` can never raise
`SilenceDetectionError` (stderr is merged into stdout, so the stderr slot of
`communicate()` is always `None` and the check is dead code); on a non-zero
exit code it raises the generic `AudioParseError` carrying the captured
output. -/
theorem detect_silence_error_behavior (min_silence_len_sec : ℚ) (process : FfmpegProc) :
    (∀ m, detect_silence_splits_with_ffmpeg min_silence_len_sec process ≠
      .error (.silenceDetectionError m)) ∧
    (process.returncode ≠ 0 →
      detect_silence_splits_with_ffmpeg min_silence_len_sec process =
        .error (.audioParseError process.merged_stdout)) := by
  constructor
  · intro m
    rw [detect_silence_splits_with_ffmpeg]
    by_cases hr : process.returncode ≠ 0
    · rw [if_pos hr]
      simp
    · rw [if_neg hr]
      exact parse_silence_lines_no_silence_error min_silence_len_sec _ m
  · intro hr
    rw [detect_silence_splits_with_ffmpeg, if_pos hr]

/-- Witness for C7 amended, at a process that exits with code 1. -/
theorem detect_silence_error_behavior_witness :
    detect_silence_splits_with_ffmpeg 1 { merged_stdout := s2l "boom", returncode := 1 } =
      .error (.audioParseError (s2l "boom")) :=
  (detect_silence_error_behavior 1 { merged_stdout := s2l "boom", returncode := 1 }).2
    (by decide)

/-! ### C8: tolerant SRT parsing -/

/-- C8.  `srt_parse` is a total function (the `ValueError` of tuple
unpacking inside `parse_block` is caught by the source, which logs and
skips): a trailing blank block (`""` or `"\n"`) contributes no entry, any
block whose line split or timecode split is malformed is skipped rather than
aborting the parse, every well-formed block yields exactly one entry carrying
its text and its start and end times, and the parse of a file is exactly the
blockwise parse of its blank-line split. -/
theorem srt_parse_tolerant :
    (parse_block [] = none) ∧
    (parse_block (s2l "\n") = none) ∧
    (∀ block idx, splitSep (s2l "\n") block = [idx] → parse_block block = none) ∧
    (∀ block idx tc rest, block ≠ [] → block ≠ s2l "\n" →
      splitSep (s2l "\n") block = idx :: tc :: rest →
      (¬ ∃ a b, splitSep (s2l " --> ") tc = [a, b]) → parse_block block = none) ∧
    (∀ block idx tc rest a b, block ≠ [] → block ≠ s2l "\n" →
      splitSep (s2l "\n") block = idx :: tc :: rest →
      splitSep (s2l " --> ") tc = [a, b] →
      parse_block block =
        some { text := joinSep (s2l " ") rest, start_time := a, end_time := b }) ∧
    (∀ s, srt_parse s = (splitSep (s2l "\n\n") s).filterMap parse_block) := by
  refine ⟨rfl, rfl, ?_, ?_, ?_, fun s => rfl⟩
  · intro block idx hsplit
    rw [parse_block]
    by_cases hif : block = s2l "\n" ∨ block = []
    · rw [if_pos hif]
    · rw [if_neg hif, hsplit]
  · intro block idx tc rest hne1 hne2 hsplit hbad
    rw [parse_block, if_neg (by rw [not_or]; exact ⟨hne2, hne1⟩), hsplit]
    dsimp only
    cases h2 : splitSep (s2l " --> ") tc with
    | nil => rfl
    | cons a t =>
      cases t with
      | nil => rfl
      | cons b t2 =>
        cases t2 with
        | nil => exact absurd ⟨a, b, h2⟩ hbad
        | cons c t3 => rfl
  · intro block idx tc rest a b hne1 hne2 hsplit htc
    rw [parse_block, if_neg (by rw [not_or]; exact ⟨hne2, hne1⟩), hsplit]
    dsimp only
    rw [htc]

/-- Witness for C8, at a well-formed block and a malformed one. -/
theorem srt_parse_tolerant_witness :
    parse_block (s2l "1\n00:00:00,000 --> 00:00:01,000\nhi") =
      some { text := joinSep (s2l " ") [s2l "hi"],
             start_time := s2l "00:00:00,000", end_time := s2l "00:00:01,000" } ∧
    parse_block (s2l "garbage") = none :=
  ⟨srt_parse_tolerant.2.2.2.2.1 (s2l "1\n00:00:00,000 --> 00:00:01,000\nhi")
      (s2l "1") (s2l "00:00:00,000 --> 00:00:01,000") [s2l "hi"]
      (s2l "00:00:00,000") (s2l "00:00:01,000") (by decide) (by decide) (by decide) (by decide),
    srt_parse_tolerant.2.2.1 (s2l "garbage") (s2l "garbage") (by decide)⟩

/-! ### C9: the effective chunking precondition -/

/-- C9.  `split_into_chunks` raises `ValueError` for every input list
(including the empty one) whenever `chunk_size ≤ overlap` and succeeds
whenever `overlap < chunk_size`; `translate_srt`'s own validation rejects
only `overlap > chunk_size` (and, vacuously for naturals, `overlap < 0`), so
a call with `overlap = chunk_size` passes `translate_srt`'s checks and fails
only inside the chunker, with the chunker's error message. -/
theorem chunker_strict_precondition :
    (∀ (lst : List Entry) (chunk_size overlap : Nat), chunk_size ≤ overlap →
      split_into_chunks lst chunk_size overlap =
        .error (.valueError (s2l "chunk_size must be greater than overlap"))) ∧
    (∀ (lst : List Entry) (chunk_size overlap : Nat), overlap < chunk_size →
      ∃ chunks, split_into_chunks lst chunk_size overlap = .ok chunks) ∧
    (∀ (oracle : List Msg → List Char) (word_wrap : List Char → List Char)
      (wip : Option Wip) (srt_text target_language extra_prompt_instruction : List Char)
      (chunk_size : Nat),
      translate_srt oracle word_wrap wip srt_text target_language extra_prompt_instruction
        chunk_size chunk_size =
        .error (.valueError (s2l "chunk_size must be greater than overlap"))) ∧
    (∀ (oracle : List Msg → List Char) (word_wrap : List Char → List Char)
      (wip : Option Wip) (srt_text target_language extra_prompt_instruction : List Char)
      (chunk_size overlap : Nat), chunk_size < overlap →
      translate_srt oracle word_wrap wip srt_text target_language extra_prompt_instruction
        chunk_size overlap =
        .error (.valueError (s2l "Overlap size cannot be larger than chunk size"))) := by
  refine ⟨?_, ?_, ?_, ?_⟩
  · intro lst cs ov h
    rw [split_into_chunks, if_pos h]
  · intro lst cs ov h
    rw [split_into_chunks, if_neg (by omega)]
    exact ⟨_, rfl⟩
  · intro oracle ww wip srt target extra cs
    rw [translate_srt, if_neg (by omega), if_neg (by omega)]
    rw [split_into_chunks, if_pos (le_refl cs)]
  · intro oracle ww wip srt target extra cs ov h
    rw [translate_srt, if_pos h]

/-- Witness for C9: with `chunk_size = overlap = 2`, the chunker rejects the
call on a concrete document and the rejection surfaces through
`translate_srt` with the chunker's message, not the validator's. -/
theorem chunker_strict_precondition_witness :
    split_into_chunks ([] : List Entry) 2 2 =
      .error (.valueError (s2l "chunk_size must be greater than overlap")) ∧
    translate_srt exOracle (fun t => t) none exSrt (s2l "Polish") [] 2 2 =
      .error (.valueError (s2l "chunk_size must be greater than overlap")) :=
  ⟨chunker_strict_precondition.1 [] 2 2 (by decide),
   chunker_strict_precondition.2.2.1 exOracle (fun t => t) none exSrt (s2l "Polish") [] 2⟩

end Subverses
